import Mathlib

/-!
Verification of the glossary generator (`scripts/generate_glossary.py`).

The Python module is a single-pass, line-oriented text processor.  We give a
shallow embedding: documents are `String`s, a file that may not exist is an
`Option String`, dictionaries (Python `dict` / `defaultdict`) are
insertion-ordered association lists, and every regular expression that the
script uses is replaced by an explicit, executable character-list matcher with
the same semantics on the inputs the script feeds it.  Python's `str.strip`,
`str.lower`, `str.split` are modelled character-for-character (ASCII case
mapping, which is what the documentation corpus uses).
-/

set_option maxHeartbeats 1000000
set_option maxRecDepth 4000

namespace GlossaryGen

/-- Whitespace as recognised by Python `str.strip()` / regex `\s` (ASCII range). -/
def pyIsWs (c : Char) : Bool :=
  c = ' ' || c = '\t' || c = '\n' || c = '\r' || c = '\x0b' || c = '\x0c'

/-- Characters of `str.strip()` applied to a character list. -/
def pyStripL (l : List Char) : List Char :=
  ((l.dropWhile pyIsWs).reverse.dropWhile pyIsWs).reverse

/-- Model of Python `str.strip()`. -/
def pyStrip (s : String) : String := String.mk (pyStripL s.data)

/-- Model of Python `str.rstrip()`. -/
def pyRstrip (s : String) : String := String.mk ((s.data.reverse.dropWhile pyIsWs).reverse)

/-- Model of Python `str.lower()` (ASCII case mapping, as used by the docs). -/
def pyLower (s : String) : String := String.mk (s.data.map Char.toLower)

/-- Split a character list at every newline, exactly like Python `str.split("\n")`. -/
def splitNlL : List Char → List (List Char)
  | [] => [[]]
  | c :: rest =>
    if c = '\n' then [] :: splitNlL rest
    else
      match splitNlL rest with
      | [] => [[c]]
      | g :: gs => (c :: g) :: gs

/-- Model of Python `content.split("\n")`. -/
def splitNl (s : String) : List String := (splitNlL s.data).map String.mk

/-- Join character-list lines with newlines, like Python `"\n".join`. -/
def joinNlL : List (List Char) → List Char
  | [] => []
  | [x] => x
  | x :: y :: xs => x ++ '\n' :: joinNlL (y :: xs)

/-- Model of Python `"\n".join(lines)`. -/
def joinNl (ls : List String) : String :=
  String.mk (joinNlL (ls.map String.data))

/-- Boolean prefix test on character lists. -/
def isPre : List Char → List Char → Bool
  | [], _ => true
  | _ :: _, [] => false
  | a :: ps, b :: ls => a = b && isPre ps ls

/-- Join a list of strings with a separator, like Python `sep.join(xs)`. -/
def joinSep (sep : String) (ls : List String) : String :=
  String.mk (List.intercalate sep.data (ls.map String.data))

/-- Lexicographic (code-point) `≤` on character lists, Python string order. -/
def charLe : List Char → List Char → Bool
  | [], _ => true
  | _ :: _, [] => false
  | a :: as, b :: bs => if a < b then true else if b < a then false else charLe as bs

/-- Python `≤` on strings as a proposition. -/
def strLe (a b : String) : Prop := charLe a.data b.data = true

instance : DecidableRel strLe := fun a b => inferInstanceAs (Decidable (_ = true))

/-- A glossary term with its definition and metadata (class `GlossaryTerm`).
The Python attribute `section` is a Lean keyword, so the field is `sect`. -/
structure GlossaryTerm where
  name : String
  definition : String
  sect : String
deriving DecidableEq, Repr

/-- A reference to a term in a document (class `TermReference`). -/
structure TermReference where
  file_path : String
  display_path : String
deriving DecidableEq, Repr

/-- Files to exclude from scanning (`EXCLUDED_FILES`). -/
def EXCLUDED_FILES : List String := ["glossary.md", "changelog.md"]

/-- Sections in glossary.md that are not alphabetical term sections
(`NON_TERM_SECTIONS`). -/
def NON_TERM_SECTIONS : List String :=
  ["Metadata Tags Reference", "Common Abbreviations", "Tool Names Quick Reference"]

/-- The fixed front-matter block emitted by the renderer (`FRONTMATTER`). -/
def FRONTMATTER : String :=
  "---\ntitle: \"Glossary\"\ndescription: \"Comprehensive glossary of terms used in the Dukes Engineering Style Guide\"\nauthor: \"Tyler Dukes\"\ntags: [glossary, terms, definitions, reference, dictionary]\ncategory: \"Reference\"\nstatus: \"active\"\n---"

/-- Match of `re.match(r"^## ([A-Z])$", line.strip())`: the section letter. -/
def sectionHeader? (line : String) : Option Char :=
  match pyStripL line.data with
  | '#' :: '#' :: ' ' :: c :: [] => if 'A' ≤ c && c ≤ 'Z' then some c else none
  | _ => none

/-- Match of `re.match(r"^## (.+)$", line.strip())`: group 1 (text after `## `). -/
def hhGroup? (line : String) : Option String :=
  match pyStripL line.data with
  | '#' :: '#' :: ' ' :: rest => if rest.length ≥ 1 then some (String.mk rest) else none
  | _ => none

/-- Match of `re.match(r"^### (.+)$", line.strip())`: group 1 (text after `### `). -/
def termGroup? (line : String) : Option String :=
  match pyStripL line.data with
  | '#' :: '#' :: '#' :: ' ' :: rest => if rest.length ≥ 1 then some (String.mk rest) else none
  | _ => none

/-- Strip a leading `"---"` token, used by the trailing-horizontal-rule matcher. -/
def dashes3? : List Char → Option (List Char)
  | '-' :: '-' :: '-' :: rest => some rest
  | _ => none

theorem length_dropWhile_le (p : Char → Bool) (l : List Char) :
    (l.dropWhile p).length ≤ l.length := by
  induction l with
  | nil => simp [List.dropWhile]
  | cons c rest ih =>
    by_cases h : p c = true <;> simp [List.dropWhile, h] <;> omega

theorem dashes3_length {l rest : List Char} (h : dashes3? l = some rest) :
    rest.length + 3 = l.length := by
  match l with
  | '-' :: '-' :: '-' :: r => simp [dashes3?] at h; subst h; simp
  | [] => simp [dashes3?] at h
  | [c] => unfold dashes3? at h; split at h <;> simp_all
  | [c, d] => unfold dashes3? at h; split at h <;> simp_all
  | c :: d :: e :: r =>
    unfold dashes3? at h
    split at h <;> simp_all

/-- Working on the reversed tail after one matched `"---"`, consume the longest
extension of the suffix matched by `(\n*---\s*)+$`: greedily more
`whitespace* "---"` groups, otherwise finish by dropping the newline run that
the first group's `\n*` matched.  Structural recursion on a fuel that each
step decreases while the list shrinks by at least three characters, so
`length + 1` fuel never runs out. -/
def hruleLoopF : Nat → List Char → List Char
  | 0, r => r.dropWhile (fun c => c = '\n')
  | fuel + 1, r =>
    match dashes3? (r.dropWhile pyIsWs) with
    | some rest => hruleLoopF fuel rest
    | none => r.dropWhile (fun c => c = '\n')

/-- Entry point of the greedy extension loop with sufficient fuel. -/
def hruleLoop (r : List Char) : List Char := hruleLoopF (r.length + 1) r

/-- Model of `re.sub(r"(\n*---\s*)+$", "", s)`: remove the longest suffix
consisting of one or more groups of optional newlines, a `---`, and trailing
whitespace. -/
def hruleStrip (s : String) : String :=
  match dashes3? (s.data.reverse.dropWhile pyIsWs) with
  | some rest => String.mk ((hruleLoop rest).reverse)
  | none => s

/-- Final cleanup of an accumulated definition, as in the parser:
`"\n".join(lines).strip()`, strip trailing horizontal rules, `strip()` again. -/
def finalizeDef (ls : List String) : String :=
  pyStrip (hruleStrip (pyStrip (joinNl ls)))

/-- Insert into an insertion-ordered dictionary: Python `d[k] = v`
(update in place if the key exists, else append). -/
def dictInsert (d : List (String × GlossaryTerm)) (k : String) (v : GlossaryTerm) :
    List (String × GlossaryTerm) :=
  if d.any (fun kv => kv.1 = k) then
    d.map (fun kv => if kv.1 = k then (k, v) else kv)
  else d ++ [(k, v)]

/-- Lookup in an association list modelling a Python dict. -/
def alookup {α : Type} (d : List (String × α)) (k : String) : Option α :=
  (d.find? (fun kv => kv.1 = k)).map (fun kv => kv.2)

/-- State threaded through `parse_existing_glossary`'s line loop. -/
structure ParseState where
  terms : List (String × GlossaryTerm)
  currentSection : String
  currentTerm : String
  currentDefLines : List String
  inFrontmatter : Bool
  frontmatterCount : Nat
  inNonTermSection : Bool
deriving Repr

/-- Initial parser state. -/
def initParseState : ParseState :=
  { terms := [], currentSection := "", currentTerm := "", currentDefLines := [],
    inFrontmatter := false, frontmatterCount := 0, inNonTermSection := false }

/-- The `GlossaryTerm` built from the parser's pending accumulation. -/
def pendingTerm (st : ParseState) : GlossaryTerm :=
  { name := st.currentTerm, definition := finalizeDef st.currentDefLines,
    sect := st.currentSection }

/-- Save the pending term, guarded by `if current_term and not in_non_term_section`. -/
def flushTerm (st : ParseState) : List (String × GlossaryTerm) :=
  if st.currentTerm ≠ "" && !st.inNonTermSection then
    dictInsert st.terms (pyLower st.currentTerm) (pendingTerm st)
  else st.terms

/-- Body of the parser's line loop after the frontmatter bookkeeping: header
classification and definition collection. -/
def parseLineRest (st : ParseState) (line : String) : ParseState :=
  if st.inFrontmatter then st
  else
    match sectionHeader? line with
      | some c =>
        { st with terms := flushTerm st,
                  currentSection := String.mk [c],
                  currentTerm := "", currentDefLines := [],
                  inNonTermSection := false }
      | none =>
        match hhGroup? line with
        | some g =>
          let sectionName := pyStrip g
          { st with terms := flushTerm st,
                    inNonTermSection :=
                      if sectionName ∈ NON_TERM_SECTIONS then true
                      else st.inNonTermSection,
                    currentTerm := "", currentDefLines := [] }
        | none =>
          if st.inNonTermSection then st
          else
            match termGroup? line with
            | some g =>
              let newTerms :=
                if st.currentTerm ≠ "" then
                  dictInsert st.terms (pyLower st.currentTerm) (pendingTerm st)
                else st.terms
              { st with terms := newTerms, currentTerm := pyStrip g,
                        currentDefLines := [] }
            | none =>
              if st.currentTerm ≠ "" then
                { st with currentDefLines := st.currentDefLines ++ [line] }
              else st

/-- One iteration of the `for line in lines` loop of `parse_existing_glossary`:
the frontmatter delimiter handling, then the rest of the body on the possibly
count-incremented state. -/
def parseLine (st : ParseState) (line : String) : ParseState :=
  if pyStrip line = "---" && st.frontmatterCount + 1 ≤ 2 then
    { st with frontmatterCount := st.frontmatterCount + 1,
              inFrontmatter := !st.inFrontmatter }
  else
    parseLineRest
      (if pyStrip line = "---" then
        { st with frontmatterCount := st.frontmatterCount + 1 }
      else st) line

/-- Model of `parse_existing_glossary`: the file content is `some content`, a
missing file is `none` (returns the empty mapping).  Returns the mapping from
lowercase term name to `GlossaryTerm`, in insertion order. -/
def parse_existing_glossary : Option String → List (String × GlossaryTerm)
  | none => []
  | some content =>
    let st := (splitNl content).foldl parseLine initParseState
    flushTerm st

/-- Single uppercase letter test, `re.match(r"^[A-Z]$", name)`. -/
def isSingleUpper (s : String) : Bool :=
  match s.data with
  | [c] => 'A' ≤ c && c ≤ 'Z'
  | _ => false

/-- State of the `parse_supplementary_sections` line loop. -/
structure SuppState where
  accRev : List String
  capturing : Bool
  inFrontmatter : Bool
  frontmatterCount : Nat
deriving Repr

/-- One iteration of the `for line in lines` loop of `parse_supplementary_sections`. -/
def suppLine (st : SuppState) (line : String) : SuppState :=
  if pyStrip line = "---" && st.frontmatterCount + 1 ≤ 2 then
    { st with frontmatterCount := st.frontmatterCount + 1,
              inFrontmatter := !st.inFrontmatter }
  else
    let st := if pyStrip line = "---" then
                { st with frontmatterCount := st.frontmatterCount + 1 } else st
    if st.inFrontmatter then st
    else
      match hhGroup? line with
      | some g =>
        let sectionName := pyStrip g
        if sectionName ∈ NON_TERM_SECTIONS then
          { st with capturing := true, accRev := line :: st.accRev }
        else if isSingleUpper sectionName then
          { st with capturing := false }
        else if st.capturing then { st with accRev := line :: st.accRev } else st
      | none =>
        if st.capturing then { st with accRev := line :: st.accRev } else st

/-- Skip forward to the first newline (kept), for `.*` matching to end of line. -/
def dropToNl : List Char → List Char
  | [] => []
  | '\n' :: r => '\n' :: r
  | _ :: r => dropToNl r

theorem length_dropToNl_le (l : List Char) : (dropToNl l).length ≤ l.length := by
  induction l with
  | nil => simp [dropToNl]
  | cons c r ih =>
    by_cases h : c = '\n' <;> simp [dropToNl, h] <;> omega

/-- Model of `re.sub(marker + ".*", "", s)` for a literal nonempty marker
`m :: ms`: remove every occurrence of the marker together with the rest of its
line. -/
def removeMarkedF (m : Char) (ms : List Char) : Nat → List Char → List Char
  | 0, l => l
  | _ + 1, [] => []
  | fuel + 1, c :: rest =>
    if isPre (m :: ms) (c :: rest) then
      removeMarkedF m ms fuel (dropToNl ((c :: rest).drop (ms.length + 1)))
    else c :: removeMarkedF m ms fuel rest

/-- Entry point of the marker remover with sufficient fuel (every step
consumes at least one character, so `length + 1` fuel never runs out). -/
def removeMarked (m : Char) (ms : List Char) (l : List Char) : List Char :=
  removeMarkedF m ms (l.length + 1) l

/-- The three footer patterns stripped by `parse_supplementary_sections`, with
`.*` running to end of line: `\*\*Total Terms\*\*:.*`, `For additional terms.*`,
`\[GitHub repository\].*`. -/
def stripFooterPatterns (s : String) : String :=
  let d1 := removeMarked '*' (String.data ("*Total Terms**:")) s.data
  let d2 := removeMarked 'F' (String.data ("or additional terms")) d1
  let d3 := removeMarked '[' (String.data ("GitHub repository]")) d2
  String.mk d3

/-- Model of `re.sub(r"\n---\s*$", "", s)` applied after `rstrip()`: since the
string then ends in a non-whitespace character, the `\s*` part is empty and the
substitution just drops a trailing `"\n---"`. -/
def stripTrailNlDashes (s : String) : String :=
  if isPre ['-', '-', '-', '\n'] s.data.reverse then
    String.mk (s.data.take (s.data.length - 4))
  else s

/-- Model of `parse_supplementary_sections`: extract the non-term sections,
strip the generated footer, and clean trailing separators. -/
def parse_supplementary_sections : Option String → String
  | none => ""
  | some content =>
    let st := (splitNl content).foldl suppLine
      { accRev := [], capturing := false, inFrontmatter := false, frontmatterCount := 0 }
    let result := pyStrip (joinNl st.accRev.reverse)
    let result := stripFooterPatterns result
    let result := stripTrailNlDashes (pyRstrip result)
    pyStrip result

/-- Skip past the closing triple backtick of a fenced block (the lazy
`[\s\S]*?` part of the fence regex): drop everything up to and including the
first triple backtick, or fail if there is none. -/
def dropToClose : List Char → Option (List Char)
  | [] => none
  | c :: rest =>
    if isPre ['`', '`', '`'] (c :: rest) then some (rest.drop 2)
    else dropToClose rest

theorem dropToClose_length {l rest : List Char} (h : dropToClose l = some rest) :
    rest.length < l.length := by
  induction l with
  | nil => simp [dropToClose] at h
  | cons c r ih =>
    rw [dropToClose] at h
    split at h
    · injection h with h2
      subst h2
      have hlen : (r.drop 2).length ≤ r.length := by
        simp only [List.length_drop]
        omega
      simp only [List.length_cons]
      omega
    · have := ih h
      simp
      omega

/-- Model of `re.sub(r"```[\s\S]*?```", "", content)` on characters: each
opening triple backtick is removed together with everything through the nearest
closing triple backtick; an opener with no closer is left in place. -/
def stripFencedLF : Nat → List Char → List Char
  | 0, l => l
  | _ + 1, [] => []
  | fuel + 1, c :: rest =>
    if isPre ['`', '`', '`'] (c :: rest) then
      match dropToClose (rest.drop 2) with
      | some rest' => stripFencedLF fuel rest'
      | none => c :: rest
    else c :: stripFencedLF fuel rest

/-- Entry point of the fence stripper with sufficient fuel (every step
consumes at least one character, so `length + 1` fuel never runs out). -/
def stripFencedL (l : List Char) : List Char := stripFencedLF (l.length + 1) l

/-- Model of stripping fenced code blocks from a document string. -/
def stripFenced (s : String) : String := String.mk (stripFencedL s.data)

/-- Model of `re.sub(r"`[^`]+`", "", content)` on characters: remove every
inline code span (a backtick, one or more non-backticks, a backtick), scanning
left to right. -/
def stripInlineLF : Nat → List Char → List Char
  | 0, l => l
  | _ + 1, [] => []
  | fuel + 1, c :: rest =>
    if c = '`' then
      if (rest.takeWhile (fun d => d ≠ '`')).length ≥ 1 &&
          (rest.dropWhile (fun d => d ≠ '`')).length ≥ 1 then
        stripInlineLF fuel ((rest.dropWhile (fun d => d ≠ '`')).drop 1)
      else c :: stripInlineLF fuel rest
    else c :: stripInlineLF fuel rest

/-- Entry point of the inline-span stripper with sufficient fuel (every step
consumes at least one character, so `length + 1` fuel never runs out). -/
def stripInlineL (l : List Char) : List Char := stripInlineLF (l.length + 1) l

/-- Model of stripping inline code spans from a document string. -/
def stripInline (s : String) : String := String.mk (stripInlineL s.data)

/-- Word character for the regex `\b` boundary (`\w`, ASCII range as used by
the documentation corpus). -/
def isWordChar (c : Char) : Bool := c.isAlpha || c.isDigit || c = '_'

/-- Case-insensitive literal prefix match (the escaped base name under
`re.IGNORECASE`). -/
def caselessIsPre : List Char → List Char → Bool
  | [], _ => true
  | _ :: _, [] => false
  | a :: ps, b :: ls => a.toLower = b.toLower && caselessIsPre ps ls

/-- Truth of `\b` at a position between an optional previous character and an
optional next character: exactly one side is a word character. -/
def boundaryAt (prev next : Option Char) : Bool :=
  Bool.xor
    (match prev with | some c => isWordChar c | none => false)
    (match next with | some c => isWordChar c | none => false)

/-- Scan of `re.search` for the pattern `\b<base>\b` (case-insensitive, base
escaped as a literal): at each position require a boundary before, a caseless
match of `base`, and a boundary after. -/
def wordSearchAux (base : List Char) (b0 bLast : Char) (prev : Option Char) :
    List Char → Bool
  | [] => false
  | c :: rest =>
    (boundaryAt prev (some b0) &&
      caselessIsPre base (c :: rest) &&
      boundaryAt (some bLast) (((c :: rest).drop base.length).head?)) ||
    wordSearchAux base b0 bLast (some c) rest

/-- Model of `re.compile(r"\b" + re.escape(base) + r"\b", re.IGNORECASE)
.search(text)`.  Only called with `base.length ≥ 2` (shorter bases are skipped
before the pattern is built). -/
def wordSearch (base : String) (text : String) : Bool :=
  match base.data with
  | [] => false
  | b0 :: bs => wordSearchAux (b0 :: bs) b0 ((b0 :: bs).getLast (by simp)) none text.data

/-- Last path component of a display path (`relative_path.name`). -/
def lastComponent (p : String) : String :=
  String.mk ((p.data.reverse.takeWhile (fun c => c ≠ '/')).reverse)

/-- Base name of a term for matching: `term.name.split("(")[0].strip()`. -/
def termBaseName (t : GlossaryTerm) : String :=
  pyStrip (String.mk (t.name.data.takeWhile (fun c => c ≠ '(')))

/-- Append a reference under a key with de-duplication by display path, the
body of the `if pattern.search(...)` branch of the scanner. -/
def addRef (refs : List (String × List TermReference)) (k : String)
    (r : TermReference) : List (String × List TermReference) :=
  match alookup refs k with
  | none => refs ++ [(k, [r])]
  | some rs =>
    if rs.any (fun x => x.display_path = r.display_path) then refs
    else refs.map (fun kv => if kv.1 = k then (kv.1, kv.2 ++ [r]) else kv)

/-- Inner loop of the scanner: try every known term against one stripped
document. -/
def scanDocTerms (path : String) (stripped : String)
    (terms : List (String × GlossaryTerm))
    (refs : List (String × List TermReference)) : List (String × List TermReference) :=
  terms.foldl (fun refs kv =>
    let base := termBaseName kv.2
    if base.length < 2 then refs
    else if wordSearch base stripped then
      addRef refs kv.1 { file_path := path, display_path := path }
    else refs) refs

/-- Model of `scan_docs_for_term_usage`.  The docs tree is a list of
(display path, content) pairs, in the sorted traversal order of `rglob`;
`file_path` and `display_path` coincide in the model. -/
def scan_docs_for_term_usage (docs : List (String × String))
    (terms : List (String × GlossaryTerm)) : List (String × List TermReference) :=
  docs.foldl (fun refs doc =>
    if lastComponent doc.1 ∈ EXCLUDED_FILES then refs
    else scanDocTerms doc.1 (stripInline (stripFenced doc.2)) terms refs) []

/-- Character class of the bold-candidate regex body `[A-Za-z0-9 /\-()]`. -/
def isBoldBody (c : Char) : Bool :=
  c.isAlpha || c.isDigit || c = ' ' || c = '/' || c = '-' || c = '(' || c = ')'

/-- Attempt to match `([A-Z][A-Za-z0-9 /\-()]+)\*\*` right after an opening
`**`: an uppercase first letter, a maximal run of at least two body
characters, then the closing `**`.  (The body class contains no `*`, so the
regex engine cannot succeed by backtracking the greedy `+`.) -/
def grabBold (l : List Char) : Option (String × List Char) :=
  match l with
  | [] => none
  | c :: _ =>
    if 'A' ≤ c && c ≤ 'Z' then
      if (l.takeWhile isBoldBody).length ≥ 2 && isPre ['*', '*'] (l.dropWhile isBoldBody) then
        some (String.mk (l.takeWhile isBoldBody), (l.dropWhile isBoldBody).drop 2)
      else none
    else none

theorem grabBold_length {l : List Char} {s : String} {rest : List Char}
    (h : grabBold l = some (s, rest)) : rest.length < l.length := by
  match l with
  | [] => simp [grabBold] at h
  | c :: r =>
    rw [grabBold] at h
    split at h
    · split at h
      · injection h with h2
        have h3 := congrArg Prod.snd h2
        simp only at h3
        subst h3
        rename_i hrun
        have h4 : (List.takeWhile isBoldBody (c :: r)).length +
            (List.dropWhile isBoldBody (c :: r)).length = (c :: r).length := by
          rw [← List.length_append, List.takeWhile_append_dropWhile]
        have h5 : 2 ≤ (List.takeWhile isBoldBody (c :: r)).length := by
          have := Bool.and_elim_left hrun
          simpa using this
        simp only [List.length_drop, List.length_cons] at *
        omega
      · exact absurd h (by simp)
    · exact absurd h (by simp)

/-- All group-1 captures of `finditer` for the bold-candidate pattern
`\*\*([A-Z][A-Za-z0-9 /\-()]+)\*\*`, scanning left to right and resuming after
each match. -/
def boldScanF : Nat → List Char → List String
  | 0, _ => []
  | _ + 1, [] => []
  | fuel + 1, c :: rest =>
    if isPre ['*', '*'] (c :: rest) then
      match grabBold (rest.drop 1) with
      | some (s, rest') => s :: boldScanF fuel rest'
      | none => boldScanF fuel rest
    else boldScanF fuel rest

/-- Entry point of the bold-capture scan with sufficient fuel (every step
consumes at least one character, so `length + 1` fuel never runs out). -/
def boldScan (l : List Char) : List String := boldScanF (l.length + 1) l

/-- Bold candidate captures of a document string. -/
def boldMatches (s : String) : List String := boldScan s.data

/-- Increment a counter in an insertion-ordered `defaultdict(int)`. -/
def bump (d : List (String × Nat)) (k : String) : List (String × Nat) :=
  if d.any (fun kv => kv.1 = k) then
    d.map (fun kv => if kv.1 = k then (kv.1, kv.2 + 1) else kv)
  else d ++ [(k, 1)]

/-- The filters applied to one bold capture before it is counted, matching the
body of the `for match in bold_pattern.finditer(...)` loop. -/
def candidateOk (known_terms : List String) (term : String) : Bool :=
  !(term.length < 3) &&
  !(pyLower term ∈ known_terms) &&
  !(isPre (String.data ("Version")) term.data ||
    isPre (String.data ("Note")) term.data ||
    isPre (String.data ("Warning")) term.data ||
    isPre (String.data ("Important")) term.data) &&
  !(term.data.any (fun c => c = ':'))

/-- Process one document's bold captures into the counter. -/
def tallyDoc (known_terms : List String) (acc : List (String × Nat))
    (content : String) : List (String × Nat) :=
  (boldMatches (stripFenced content)).foldl (fun acc m =>
    let term := pyStrip m
    if candidateOk known_terms term then bump acc term else acc) acc

/-- Model of `detect_candidate_terms`: tally every bold capture passing the
filters (one count per occurrence), then keep entries with count at least 3. -/
def detect_candidate_terms (docs : List (String × String))
    (known_terms : List String) : List (String × Nat) :=
  let tally := docs.foldl (fun acc doc =>
    if lastComponent doc.1 ∈ EXCLUDED_FILES then acc
    else tallyDoc known_terms acc doc.2) []
  tally.filter (fun kv => 3 ≤ kv.2)

/-- One step of grouping terms by section:
`sections[term.section].append(term)` on a `defaultdict(list)`. -/
def groupAppend (acc : List (String × List GlossaryTerm)) (t : GlossaryTerm) :
    List (String × List GlossaryTerm) :=
  if acc.any (fun g => g.1 = t.sect) then
    acc.map (fun g => if g.1 = t.sect then (g.1, g.2 ++ [t]) else g)
  else acc ++ [(t.sect, [t])]

/-- Group terms by section, `sections[term.section].append(term)` over
`terms.values()` in insertion order. -/
def groupBySection (terms : List (String × GlossaryTerm)) :
    List (String × List GlossaryTerm) :=
  terms.foldl (fun acc kv => groupAppend acc kv.2) []

/-- Sort key order for terms: case-insensitive name (`key=lambda t: t.name.lower()`). -/
def termLe (a b : GlossaryTerm) : Prop := strLe (pyLower a.name) (pyLower b.name)

instance : DecidableRel termLe := fun a b => inferInstanceAs (Decidable (_ = true))

/-- Sort order for references: display path (`key=lambda r: r.display_path`). -/
def refLe (a b : TermReference) : Prop := strLe a.display_path b.display_path

instance : DecidableRel refLe := fun a b => inferInstanceAs (Decidable (_ = true))

/-- Markdown link for one reference. -/
def refLink (r : TermReference) : String :=
  "[" ++ r.display_path ++ "](" ++ r.display_path ++ ")"

/-- The `*Referenced in: …*` line built for a term with reference list `rs`:
links sorted by display path, at most five shown, an `and N more` tail when
there are more than five. -/
def refText (rs : List TermReference) : String :=
  let ref_links := (List.insertionSort refLe rs).map refLink
  let base := "*Referenced in: " ++ joinSep (", ") (ref_links.take 5)
  if rs.length > 5 then
    base ++ " and " ++ toString (rs.length - 5) ++ " more*"
  else base ++ "*"

/-- Lines emitted for one term inside its section. -/
def termBlock (references : Option (List (String × List TermReference)))
    (cross_ref : Bool) (t : GlossaryTerm) : List String :=
  let extra :=
    if cross_ref then
      match references with
      | some refsMap =>
        match alookup refsMap (pyLower t.name) with
        | some rs => if rs.length ≠ 0 then ["", refText rs] else []
        | none => []
      | none => []
    else []
  ["### " ++ t.name, "", t.definition] ++ extra ++ [""]

/-- The full `lines` list assembled by `generate_glossary_content` before the
final `"\n".join`. -/
def renderLines (terms : List (String × GlossaryTerm))
    (references : Option (List (String × List TermReference)))
    (supplementary : String) (cross_ref : Bool) : List String :=
  let sections := (groupBySection terms).map
    (fun g => (g.1, List.insertionSort termLe g.2))
  let letters := List.insertionSort strLe (sections.map (fun g => g.1))
  let secLines := letters.flatMap (fun L =>
    ["## " ++ L, ""] ++
      ((alookup sections L).getD []).flatMap (termBlock references cross_ref))
  let suppLines := if supplementary ≠ "" then ["---", "", supplementary, ""] else []
  [FRONTMATTER, "",
   "This glossary defines terms used throughout the Dukes Engineering Style Guide, including technical concepts, tool names,",
   "metadata tags, and industry terminology.",
   ""] ++ secLines ++ suppLines ++
  ["---", "",
   "**Total Terms**: " ++ toString terms.length ++ "+",
   "",
   "For additional terms or clarifications, please refer to the specific language guides or open an issue on the",
   "[GitHub repository](https://github.com/tydukes/coding-style-guide/issues).",
   ""]

/-- Model of `generate_glossary_content`. -/
def generate_glossary_content (terms : List (String × GlossaryTerm))
    (references : Option (List (String × List TermReference)))
    (supplementary : String) (cross_ref : Bool) : String :=
  joinNl (renderLines terms references supplementary cross_ref)

/-- One full regenerate step: parse a glossary document, render it with no
reference data and its own extracted supplementary text, and parse the result
again — the composition quantified over by the round-trip property. -/
def reparseRendered (d : String) : List (String × GlossaryTerm) :=
  parse_existing_glossary (some (generate_glossary_content
    (parse_existing_glossary (some d)) none
    (parse_supplementary_sections (some d)) false))

/-- A docs tree for the driver model: the optional glossary file content and
the other documents. -/
structure DocsTree where
  glossary : Option String
  docs : List (String × String)

/-- Model of the non-`--scan-new`, non-`--dry-run` path of `main`: a missing
docs directory is the fatal exit-1 error; a missing glossary file is not.
Returns the rendered content and the parsed term count. -/
def run_generate (tree : Option DocsTree) : Except String (String × Nat) :=
  match tree with
  | none => Except.error ("Error: Documentation directory not found")
  | some t =>
    let terms := parse_existing_glossary t.glossary
    let supplementary := parse_supplementary_sections t.glossary
    Except.ok (generate_glossary_content terms none supplementary false, terms.length)

/-! ### Order lemmas for the sorts used by the renderer -/

theorem charLe_total (a b : List Char) : charLe a b = true ∨ charLe b a = true := by
  induction a generalizing b with
  | nil => left; rfl
  | cons x xs ih =>
    cases b with
    | nil => right; rfl
    | cons y ys =>
      rcases lt_trichotomy x y with h | h | h
      · left; simp [charLe, h]
      · subst h
        rcases ih ys with h2 | h2
        · left; simp [charLe, h2]
        · right; simp [charLe, h2]
      · right; simp [charLe, h]

theorem charLe_trans {a b c : List Char} (h1 : charLe a b = true)
    (h2 : charLe b c = true) : charLe a c = true := by
  induction a generalizing b c with
  | nil => rfl
  | cons x xs ih =>
    cases b with
    | nil => simp [charLe] at h1
    | cons y ys =>
      cases c with
      | nil => simp [charLe] at h2
      | cons z zs =>
        rw [charLe] at h1 h2 ⊢
        rcases lt_trichotomy x y with hxy | hxy | hxy
        · rcases lt_trichotomy y z with hyz | hyz | hyz
          · simp [lt_trans hxy hyz]
          · subst hyz; simp [hxy]
          · rw [if_neg (lt_asymm hyz), if_pos hyz] at h2; exact absurd h2 (by simp)
        · subst hxy
          rcases lt_trichotomy x z with hyz | hyz | hyz
          · simp [hyz]
          · subst hyz
            rw [if_neg (lt_irrefl x), if_neg (lt_irrefl x)] at h1 h2 ⊢
            exact ih h1 h2
          · rw [if_neg (lt_asymm hyz), if_pos hyz] at h2; exact absurd h2 (by simp)
        · rw [if_neg (lt_asymm hxy), if_pos hxy] at h1; exact absurd h1 (by simp)

theorem charLe_antisymm {a b : List Char} (h1 : charLe a b = true)
    (h2 : charLe b a = true) : a = b := by
  induction a generalizing b with
  | nil =>
    cases b with
    | nil => rfl
    | cons y ys => simp [charLe] at h2
  | cons x xs ih =>
    cases b with
    | nil => simp [charLe] at h1
    | cons y ys =>
      rw [charLe] at h1 h2
      rcases lt_trichotomy x y with hxy | hxy | hxy
      · rw [if_neg (lt_asymm hxy), if_pos hxy] at h2; exact absurd h2 (by simp)
      · subst hxy
        rw [if_neg (lt_irrefl x), if_neg (lt_irrefl x)] at h1 h2
        rw [ih h1 h2]
      · rw [if_neg (lt_asymm hxy), if_pos hxy] at h1; exact absurd h1 (by simp)

instance : IsTotal String strLe := ⟨fun a b => charLe_total a.data b.data⟩

instance : IsTrans String strLe := ⟨fun _ _ _ h1 h2 => charLe_trans h1 h2⟩

theorem strLe_antisymm {a b : String} (h1 : strLe a b) (h2 : strLe b a) : a = b := by
  cases a; cases b
  exact congrArg String.mk (charLe_antisymm h1 h2)

instance : IsTotal GlossaryTerm termLe :=
  ⟨fun a b => charLe_total (pyLower a.name).data (pyLower b.name).data⟩

instance : IsTrans GlossaryTerm termLe :=
  ⟨fun _ _ _ h1 h2 => charLe_trans h1 h2⟩

instance : IsTotal TermReference refLe :=
  ⟨fun a b => charLe_total a.display_path.data b.display_path.data⟩

instance : IsTrans TermReference refLe :=
  ⟨fun _ _ _ h1 h2 => charLe_trans h1 h2⟩

/-! ### Counter lemmas for the candidate detector -/

/-- Value lookup in a counter; missing keys count as zero. -/
def lookupCount (d : List (String × Nat)) (k : String) : Nat := (alookup d k).getD 0

/-- Number of occurrences of the candidate `k` among one document's filtered
bold captures. -/
def docMatchCount (known : List String) (content : String) (k : String) : Nat :=
  ((boldMatches (stripFenced content)).filter
    (fun m => candidateOk known (pyStrip m) && pyStrip m = k)).length

/-- Total number of counted occurrences of the candidate `k` over a docs tree,
skipping excluded files. -/
def occTotal (docs : List (String × String)) (known : List String) (k : String) : Nat :=
  (docs.map (fun doc =>
    if lastComponent doc.1 ∈ EXCLUDED_FILES then 0
    else docMatchCount known doc.2 k)).sum

theorem alookup_cons {α : Type} (k1 : String) (v : α) (d : List (String × α))
    (k : String) :
    alookup ((k1, v) :: d) k = if k1 = k then some v else alookup d k := by
  by_cases h : k1 = k <;> simp [alookup, List.find?, h]

theorem alookup_isSome_iff {α : Type} (d : List (String × α)) (k : String) :
    (alookup d k).isSome = d.any (fun kv => kv.1 = k) := by
  induction d with
  | nil => simp [alookup]
  | cons kv d ih =>
    rw [show kv = (kv.1, kv.2) from rfl, alookup_cons]
    by_cases h : kv.1 = k <;> simp [h, ih]

theorem alookup_mapBump (d : List (String × Nat)) (k k2 : String) :
    alookup (d.map (fun kv => if kv.1 = k then (kv.1, kv.2 + 1) else kv)) k2 =
      (alookup d k2).map (fun v => if k2 = k then v + 1 else v) := by
  induction d with
  | nil => simp [alookup]
  | cons kv d ih =>
    obtain ⟨k1, v⟩ := kv
    by_cases hk : k1 = k
    · subst hk
      rw [List.map_cons, if_pos rfl, alookup_cons, alookup_cons]
      by_cases h2 : k1 = k2
      · subst h2; simp
      · simp [h2, ih]
    · rw [List.map_cons, if_neg hk, alookup_cons, alookup_cons]
      by_cases h2 : k1 = k2
      · subst h2
        rw [if_pos rfl, if_pos rfl]
        simp [hk]
      · rw [if_neg h2, if_neg h2, ih]

theorem alookup_append_single (d : List (String × Nat)) (k k2 : String) :
    alookup (d ++ [(k, 1)]) k2 =
      match alookup d k2 with
      | some v => some v
      | none => if k = k2 then some 1 else none := by
  induction d with
  | nil => by_cases h : k = k2 <;> simp [alookup, List.find?, h]
  | cons kv d ih =>
    rw [show kv = (kv.1, kv.2) from rfl, List.cons_append, alookup_cons, alookup_cons]
    by_cases h : kv.1 = k2 <;> simp [h, ih]

theorem lookupCount_bump (d : List (String × Nat)) (k k2 : String) :
    lookupCount (bump d k) k2 = lookupCount d k2 + (if k2 = k then 1 else 0) := by
  unfold lookupCount bump
  by_cases hany : d.any (fun kv => kv.1 = k) = true
  · rw [if_pos hany, alookup_mapBump]
    by_cases h2 : k2 = k
    · have hs : (alookup d k2).isSome = true := by
        rw [alookup_isSome_iff]
        rw [h2]
        exact hany
      obtain ⟨v, hv⟩ := Option.isSome_iff_exists.mp hs
      rw [hv]
      simp [h2]
    · cases halo : alookup d k2 <;> simp [h2, halo]
  · rw [if_neg hany, alookup_append_single]
    have hnone : alookup d k = none := by
      cases halo : alookup d k with
      | none => rfl
      | some v =>
        exfalso
        apply hany
        rw [← alookup_isSome_iff, halo]
        rfl
    by_cases h2 : k2 = k
    · rw [h2, hnone]
      simp [hnone]
    · cases halo : alookup d k2 with
      | none =>
        rw [if_neg (fun hc : k = k2 => h2 hc.symm)]
        simp [h2]
      | some v =>
        simp [h2]

theorem lookupCount_foldBump (known : List String) (ms : List String)
    (acc : List (String × Nat)) (k : String) :
    lookupCount (ms.foldl (fun acc m =>
        if candidateOk known (pyStrip m) then bump acc (pyStrip m) else acc) acc) k =
      lookupCount acc k +
        (ms.filter (fun m => candidateOk known (pyStrip m) && pyStrip m = k)).length := by
  induction ms generalizing acc with
  | nil => simp
  | cons m ms ih =>
    rw [List.foldl_cons, ih, List.filter_cons]
    by_cases hok : candidateOk known (pyStrip m) = true
    · rw [if_pos hok, lookupCount_bump]
      by_cases hk : pyStrip m = k
      · rw [if_pos hk.symm, if_pos (by rw [hok]; simp [hk])]
        simp only [List.length_cons]
        omega
      · rw [if_neg (fun hc : k = pyStrip m => hk hc.symm),
            if_neg (by simp [hk])]
        omega
    · rw [if_neg hok, if_neg (by simp [hok])]

theorem tallyDoc_eq_foldBump (known : List String) (acc : List (String × Nat))
    (content : String) :
    tallyDoc known acc content =
      (boldMatches (stripFenced content)).foldl (fun acc m =>
        if candidateOk known (pyStrip m) then bump acc (pyStrip m) else acc) acc := rfl

theorem lookupCount_tallyDoc (known : List String) (acc : List (String × Nat))
    (content : String) (k : String) :
    lookupCount (tallyDoc known acc content) k =
      lookupCount acc k + docMatchCount known content k := by
  rw [tallyDoc_eq_foldBump, lookupCount_foldBump]
  rfl

theorem lookupCount_docsFold (docs : List (String × String)) (known : List String)
    (acc : List (String × Nat)) (k : String) :
    lookupCount (docs.foldl (fun acc doc =>
        if lastComponent doc.1 ∈ EXCLUDED_FILES then acc
        else tallyDoc known acc doc.2) acc) k =
      lookupCount acc k + occTotal docs known k := by
  induction docs generalizing acc with
  | nil => simp [occTotal]
  | cons doc docs ih =>
    rw [List.foldl_cons, ih]
    by_cases hx : lastComponent doc.1 ∈ EXCLUDED_FILES
    · simp only [if_pos hx]
      have : occTotal (doc :: docs) known k = occTotal docs known k := by
        simp [occTotal, hx]
      rw [this]
    · simp only [if_neg hx, lookupCount_tallyDoc]
      have : occTotal (doc :: docs) known k =
          docMatchCount known doc.2 k + occTotal docs known k := by
        simp [occTotal, hx]
      rw [this]
      omega

/-- Well-formedness of a counter built by `bump` from the empty list: keys are
distinct and every recorded count is positive. -/
def counterWF (d : List (String × Nat)) : Prop :=
  (d.map Prod.fst).Nodup ∧ ∀ kv ∈ d, 1 ≤ kv.2

theorem counterWF_bump {d : List (String × Nat)} (h : counterWF d) (k : String) :
    counterWF (bump d k) := by
  obtain ⟨hnd, hpos⟩ := h
  unfold bump
  by_cases hany : d.any (fun kv => kv.1 = k) = true
  · rw [if_pos hany]
    constructor
    · have : (d.map (fun kv => if kv.1 = k then (kv.1, kv.2 + 1) else kv)).map Prod.fst =
          d.map Prod.fst := by
        rw [List.map_map]
        apply List.map_congr_left
        intro kv _
        by_cases hk : kv.1 = k <;> simp [hk]
      rw [this]
      exact hnd
    · intro kv hkv
      obtain ⟨kv0, hkv0, heq⟩ := List.mem_map.mp hkv
      by_cases hk : kv0.1 = k
      · rw [if_pos hk] at heq
        subst heq
        simp
      · rw [if_neg hk] at heq
        subst heq
        exact hpos kv0 hkv0
  · rw [if_neg hany]
    constructor
    · rw [List.map_append]
      simp only [List.map_cons, List.map_nil]
      rw [List.nodup_append]
      refine ⟨hnd, List.nodup_singleton _, ?_⟩
      intro x hx
      simp only [List.mem_singleton]
      intro hc
      subst hc
      obtain ⟨kv0, hkv0, heq⟩ := List.mem_map.mp hx
      apply hany
      rw [List.any_eq_true]
      exact ⟨kv0, hkv0, by simp [heq]⟩
    · intro kv hkv
      rcases List.mem_append.mp hkv with hkv | hkv
      · exact hpos kv hkv
      · simp only [List.mem_singleton] at hkv
        subst hkv
        simp

theorem counterWF_foldBump (known : List String) (ms : List String)
    {acc : List (String × Nat)} (h : counterWF acc) :
    counterWF (ms.foldl (fun acc m =>
      if candidateOk known (pyStrip m) then bump acc (pyStrip m) else acc) acc) := by
  induction ms generalizing acc with
  | nil => exact h
  | cons m ms ih =>
    rw [List.foldl_cons]
    apply ih
    by_cases hok : candidateOk known (pyStrip m) = true
    · rw [if_pos hok]; exact counterWF_bump h _
    · rw [if_neg hok]; exact h

theorem counterWF_docsFold (docs : List (String × String)) (known : List String)
    {acc : List (String × Nat)} (h : counterWF acc) :
    counterWF (docs.foldl (fun acc doc =>
      if lastComponent doc.1 ∈ EXCLUDED_FILES then acc
      else tallyDoc known acc doc.2) acc) := by
  induction docs generalizing acc with
  | nil => exact h
  | cons doc docs ih =>
    rw [List.foldl_cons]
    apply ih
    by_cases hx : lastComponent doc.1 ∈ EXCLUDED_FILES
    · rw [if_pos hx]; exact h
    · rw [if_neg hx]
      exact counterWF_foldBump known _ h

theorem alookup_filter_none {α : Type} (p : String × α → Bool)
    {d : List (String × α)} {k : String} (h : alookup d k = none) :
    alookup (d.filter p) k = none := by
  induction d with
  | nil => simp [alookup]
  | cons kv d ih =>
    rw [show kv = (kv.1, kv.2) from rfl, alookup_cons] at h
    by_cases hk : kv.1 = k
    · rw [if_pos hk] at h; exact absurd h (by simp)
    · rw [if_neg hk] at h
      rw [List.filter_cons]
      by_cases hp : p kv = true
      · rw [if_pos hp, show kv = (kv.1, kv.2) from rfl, alookup_cons, if_neg hk]
        exact ih h
      · rw [if_neg hp]
        exact ih h

theorem alookup_filter_ge3 {d : List (String × Nat)}
    (hnd : (d.map Prod.fst).Nodup) (k : String) :
    alookup (d.filter (fun kv => 3 ≤ kv.2)) k =
      match alookup d k with
      | none => none
      | some v => if 3 ≤ v then some v else none := by
  induction d with
  | nil => simp [alookup]
  | cons kv d ih =>
    obtain ⟨k1, v⟩ := kv
    rw [List.map_cons, List.nodup_cons] at hnd
    obtain ⟨hk1, hnd⟩ := hnd
    rw [alookup_cons, List.filter_cons]
    by_cases hk : k1 = k
    · subst hk
      have hnone : alookup d k1 = none := by
        cases halo : alookup d k1 with
        | none => rfl
        | some v2 =>
          exfalso
          have hx := alookup_isSome_iff d k1
          rw [halo] at hx
          simp only [Option.isSome_some] at hx
          replace hx := hx.symm
          rw [List.any_eq_true] at hx
          obtain ⟨kv2, hkv2, hkv2e⟩ := hx
          exact hk1 (List.mem_map.mpr ⟨kv2, hkv2, by simpa using hkv2e⟩)
      by_cases h3 : 3 ≤ v
      · rw [if_pos (by simpa using h3), alookup_cons, if_pos rfl]
        simp [h3]
      · rw [if_neg (by simpa using h3)]
        rw [alookup_filter_none _ hnone]
        simp [h3]
    · by_cases h3 : 3 ≤ v
      · rw [if_pos (by simpa using h3), alookup_cons, if_neg hk, if_neg hk]
        exact ih hnd
      · rw [if_neg (by simpa using h3), if_neg hk]
        exact ih hnd

/-- Characterization of the candidate detector: a candidate phrase is present
exactly when its total occurrence count reaches 3, and then its recorded count
is that total. -/
theorem detect_lookup (docs : List (String × String)) (known : List String)
    (k : String) :
    alookup (detect_candidate_terms docs known) k =
      if 3 ≤ occTotal docs known k then some (occTotal docs known k) else none := by
  unfold detect_candidate_terms
  have hwf : counterWF (docs.foldl (fun acc doc =>
      if lastComponent doc.1 ∈ EXCLUDED_FILES then acc
      else tallyDoc known acc doc.2) []) :=
    counterWF_docsFold docs known ⟨List.nodup_nil, by simp⟩
  have hcount := lookupCount_docsFold docs known [] k
  have hzero : lookupCount ([] : List (String × Nat)) k = 0 := rfl
  rw [hzero, Nat.zero_add] at hcount
  obtain ⟨hnd, hpos⟩ := hwf
  rw [alookup_filter_ge3 hnd]
  cases halo : alookup (docs.foldl (fun acc doc =>
      if lastComponent doc.1 ∈ EXCLUDED_FILES then acc
      else tallyDoc known acc doc.2) []) k with
  | none =>
    have : lookupCount (docs.foldl (fun acc doc =>
        if lastComponent doc.1 ∈ EXCLUDED_FILES then acc
        else tallyDoc known acc doc.2) []) k = 0 := by
      unfold lookupCount
      rw [halo]
      rfl
    rw [this] at hcount
    rw [if_neg (by omega)]
  | some v =>
    have hv : lookupCount (docs.foldl (fun acc doc =>
        if lastComponent doc.1 ∈ EXCLUDED_FILES then acc
        else tallyDoc known acc doc.2) []) k = v := by
      unfold lookupCount
      rw [halo]
      rfl
    rw [hv] at hcount
    rw [← hcount]

/-! ### Section provenance invariant of the parser -/

/-- Section provenance: the empty string, or a single uppercase letter read
from an actual alphabetical section header line of the input. -/
def sectFrom (ls : List String) (s : String) : Prop :=
  s = "" ∨ ∃ c, ('A' ≤ c ∧ c ≤ 'Z') ∧ s = String.mk [c] ∧
    ∃ l ∈ ls, sectionHeader? l = some c

theorem sectionHeader?_isUpper {l : String} {c : Char}
    (h : sectionHeader? l = some c) : 'A' ≤ c ∧ c ≤ 'Z' := by
  unfold sectionHeader? at h
  split at h
  · split at h
    · injection h with h2
      subst h2
      rename_i hb
      simpa using hb
    · exact absurd h (by simp)
  · exact absurd h (by simp)

theorem dictInsert_forall {P : String × GlossaryTerm → Prop}
    {d : List (String × GlossaryTerm)} {k : String} {v : GlossaryTerm}
    (hd : ∀ kv ∈ d, P kv) (hv : P (k, v)) : ∀ kv ∈ dictInsert d k v, P kv := by
  intro kv hkv
  unfold dictInsert at hkv
  split at hkv
  · obtain ⟨kv0, hkv0, heq⟩ := List.mem_map.mp hkv
    by_cases hk : kv0.1 = k
    · rw [if_pos hk] at heq
      subst heq
      exact hv
    · rw [if_neg hk] at heq
      subst heq
      exact hd kv0 hkv0
  · rcases List.mem_append.mp hkv with h | h
    · exact hd kv h
    · simp only [List.mem_singleton] at h
      subst h
      exact hv

theorem flushTerm_sectFrom {ls : List String} {st : ParseState}
    (h1 : sectFrom ls st.currentSection)
    (h2 : ∀ kv ∈ st.terms, sectFrom ls kv.2.sect) :
    ∀ kv ∈ flushTerm st, sectFrom ls kv.2.sect := by
  unfold flushTerm
  split
  · exact dictInsert_forall h2 h1
  · exact h2

theorem parseLineRest_sectFrom (ls : List String) (st : ParseState) (l : String)
    (hl : l ∈ ls) (h1 : sectFrom ls st.currentSection)
    (h2 : ∀ kv ∈ st.terms, sectFrom ls kv.2.sect) :
    sectFrom ls (parseLineRest st l).currentSection ∧
      ∀ kv ∈ (parseLineRest st l).terms, sectFrom ls kv.2.sect := by
  unfold parseLineRest
  split
  · exact ⟨h1, h2⟩
  · split
    next c hsh =>
      exact ⟨Or.inr ⟨c, sectionHeader?_isUpper hsh, rfl, l, hl, hsh⟩,
        flushTerm_sectFrom h1 h2⟩
    next hsh =>
      split
      next g hgh => exact ⟨h1, flushTerm_sectFrom h1 h2⟩
      next hgh =>
        split
        · exact ⟨h1, h2⟩
        · split
          next g htg =>
            refine ⟨h1, ?_⟩
            split
            · exact dictInsert_forall h2 h1
            · exact h2
          next htg =>
            split
            · exact ⟨h1, h2⟩
            · exact ⟨h1, h2⟩

theorem parseLine_sectFrom (ls : List String) (st : ParseState) (l : String)
    (hl : l ∈ ls) (h1 : sectFrom ls st.currentSection)
    (h2 : ∀ kv ∈ st.terms, sectFrom ls kv.2.sect) :
    sectFrom ls (parseLine st l).currentSection ∧
      ∀ kv ∈ (parseLine st l).terms, sectFrom ls kv.2.sect := by
  unfold parseLine
  split
  · exact ⟨h1, h2⟩
  · by_cases hc : pyStrip l = "---"
    · rw [if_pos hc]
      exact parseLineRest_sectFrom ls _ l hl h1 h2
    · rw [if_neg hc]
      exact parseLineRest_sectFrom ls _ l hl h1 h2

theorem foldl_parseLine_sectFrom (ls : List String) (sub : List String)
    (st : ParseState) (hsub : ∀ l ∈ sub, l ∈ ls)
    (h1 : sectFrom ls st.currentSection)
    (h2 : ∀ kv ∈ st.terms, sectFrom ls kv.2.sect) :
    sectFrom ls (sub.foldl parseLine st).currentSection ∧
      ∀ kv ∈ (sub.foldl parseLine st).terms, sectFrom ls kv.2.sect := by
  induction sub generalizing st with
  | nil => exact ⟨h1, h2⟩
  | cons l sub ih =>
    have hstep := parseLine_sectFrom ls st l (hsub l (by simp)) h1 h2
    exact ih _ (fun x hx => hsub x (by simp [hx])) hstep.1 hstep.2

/-! ### Scanner lemmas -/

theorem alookup_append_one {α : Type} (d : List (String × α)) (k2 k : String)
    (x : α) (h : k2 ≠ k) : alookup (d ++ [(k2, x)]) k = alookup d k := by
  induction d with
  | nil => simp [alookup, List.find?, h]
  | cons kv d ih =>
    rw [List.cons_append, show kv = (kv.1, kv.2) from rfl, alookup_cons, alookup_cons]
    by_cases hk : kv.1 = k <;> simp [hk, ih]

theorem alookup_map_updateKey {α : Type} (d : List (String × α)) (k2 k : String)
    (f : α → α) (h : k2 ≠ k) :
    alookup (d.map (fun kv => if kv.1 = k2 then (kv.1, f kv.2) else kv)) k =
      alookup d k := by
  induction d with
  | nil => simp [alookup]
  | cons kv d ih =>
    rw [List.map_cons]
    by_cases h2 : kv.1 = k2
    · rw [if_pos h2, alookup_cons, show kv = (kv.1, kv.2) from rfl, alookup_cons]
      rw [if_neg (h2 ▸ h), if_neg (h2 ▸ h)]
      exact ih
    · rw [if_neg h2, show kv = (kv.1, kv.2) from rfl, alookup_cons, alookup_cons]
      by_cases hk : kv.1 = k <;> simp [hk, ih]

theorem alookup_addRef_ne {refs : List (String × List TermReference)}
    {k2 k : String} {r : TermReference} (hne : k2 ≠ k) :
    alookup (addRef refs k2 r) k = alookup refs k := by
  unfold addRef
  cases halo : alookup refs k2 with
  | none => exact alookup_append_one refs k2 k [r] hne
  | some rs =>
    dsimp only
    by_cases hdup : (rs.any fun x => decide (x.display_path = r.display_path)) = true
    · rw [if_pos hdup]
    · rw [if_neg hdup]
      exact alookup_map_updateKey refs k2 k (fun x => x ++ [r]) hne

theorem scanDocTerms_alookup_none {path stripped : String}
    {terms : List (String × GlossaryTerm)}
    {refs : List (String × List TermReference)} {k : String}
    (hshort : ∀ kv ∈ terms, kv.1 = k → (termBaseName kv.2).length < 2)
    (hnone : alookup refs k = none) :
    alookup (scanDocTerms path stripped terms refs) k = none := by
  unfold scanDocTerms
  induction terms generalizing refs with
  | nil => exact hnone
  | cons kv terms ih =>
    rw [List.foldl_cons]
    refine ih (fun x hx hk => hshort x (List.mem_cons_of_mem _ hx) hk) ?_
    by_cases hb : (termBaseName kv.2).length < 2
    · rw [if_pos hb]
      exact hnone
    · rw [if_neg hb]
      by_cases hw : wordSearch (termBaseName kv.2) stripped = true
      · rw [if_pos hw]
        by_cases hk : kv.1 = k
        · exact absurd (hshort kv (List.mem_cons_self _ _) hk) hb
        · rw [alookup_addRef_ne hk]
          exact hnone
      · rw [if_neg hw]
        exact hnone

theorem scan_alookup_none {docs : List (String × String)}
    {terms : List (String × GlossaryTerm)} {k : String}
    (hshort : ∀ kv ∈ terms, kv.1 = k → (termBaseName kv.2).length < 2) :
    alookup (scan_docs_for_term_usage docs terms) k = none := by
  unfold scan_docs_for_term_usage
  suffices h : ∀ refs, alookup refs k = none →
      alookup (docs.foldl (fun refs doc =>
        if lastComponent doc.1 ∈ EXCLUDED_FILES then refs
        else scanDocTerms doc.1 (stripInline (stripFenced doc.2)) terms refs) refs) k =
        none from h [] rfl
  induction docs with
  | nil => exact fun _ h => h
  | cons doc docs ih =>
    intro refs hrefs
    rw [List.foldl_cons]
    apply ih
    by_cases hx : lastComponent doc.1 ∈ EXCLUDED_FILES
    · rw [if_pos hx]
      exact hrefs
    · rw [if_neg hx]
      exact scanDocTerms_alookup_none hshort hrefs

theorem scan_single_doc (p c k : String) (t : GlossaryTerm)
    (hx : lastComponent p ∉ EXCLUDED_FILES)
    (hlen : ¬(termBaseName t).length < 2) :
    alookup (scan_docs_for_term_usage [(p, c)] [(k, t)]) k =
      if wordSearch (termBaseName t) (stripInline (stripFenced c)) then
        some [{ file_path := p, display_path := p }]
      else none := by
  unfold scan_docs_for_term_usage scanDocTerms
  simp only [List.foldl_cons, List.foldl_nil]
  rw [if_neg hx, if_neg hlen]
  by_cases hw : wordSearch (termBaseName t) (stripInline (stripFenced c)) = true
  · rw [if_pos hw, if_pos hw]
    simp [addRef, alookup, List.find?]
  · rw [if_neg hw, if_neg hw]
    rfl

/-! ### Fenced-block stripping lemmas -/

theorem dropToClose_append_ticks (l : List Char) (hl : ∀ c ∈ l, c ≠ '`') :
    dropToClose (l ++ ['`', '`', '`']) = some [] := by
  induction l with
  | nil => rfl
  | cons c l ih =>
    have hc : c ≠ '`' := hl c (by simp)
    rw [List.cons_append, dropToClose, if_neg (by simp [isPre, Ne.symm hc])]
    exact ih (fun x hx => hl x (List.mem_cons_of_mem _ hx))

theorem stripFenced_fullyFenced (c : String) (h : ∀ ch ∈ c.data, ch ≠ '`') :
    stripFenced ("```" ++ c ++ "```") = "" := by
  have hdata : ("```" ++ c ++ "```").data =
      '`' :: '`' :: '`' :: (c.data ++ ['`', '`', '`']) := by
    simp [String.data_append]
  unfold stripFenced stripFencedL
  rw [hdata]
  have hlen : ('`' :: '`' :: '`' :: (c.data ++ ['`', '`', '`'])).length + 1 =
      (c.data.length + 6) + 1 := by simp
  rw [hlen]
  rw [show (c.data.length + 6) + 1 = (c.data.length + 6) + 1 from rfl]
  rw [stripFencedLF]
  rw [if_pos (by simp [isPre])]
  have hdrop : (('`' :: '`' :: (c.data ++ ['`', '`', '`'])).drop 2) =
      c.data ++ ['`', '`', '`'] := rfl
  rw [hdrop, dropToClose_append_ticks c.data h]
  rw [show c.data.length + 6 = (c.data.length + 5) + 1 by omega]
  rfl

theorem wordSearch_empty (base : String) : wordSearch base ("") = false := by
  unfold wordSearch
  split <;> rfl

theorem scanDocTerms_empty_stripped (path : String)
    (terms : List (String × GlossaryTerm))
    (refs : List (String × List TermReference)) :
    scanDocTerms path ("") terms refs = refs := by
  unfold scanDocTerms
  induction terms generalizing refs with
  | nil => rfl
  | cons kv terms ih =>
    rw [List.foldl_cons]
    by_cases hb : (termBaseName kv.2).length < 2
    · rw [if_pos hb]
      exact ih refs
    · rw [if_neg hb, wordSearch_empty]
      simp only [Bool.false_eq_true, if_false]
      exact ih refs

/-! ### Grouping and rendering lemmas -/

theorem alookup_map_update_eq {α : Type} (d : List (String × α)) (k : String)
    (f : α → α) :
    alookup (d.map (fun kv => if kv.1 = k then (kv.1, f kv.2) else kv)) k =
      (alookup d k).map f := by
  induction d with
  | nil => simp [alookup]
  | cons kv d ih =>
    rw [List.map_cons]
    by_cases hk : kv.1 = k
    · rw [if_pos hk, alookup_cons, show kv = (kv.1, kv.2) from rfl, alookup_cons,
          if_pos hk, if_pos hk]
      simp
    · rw [if_neg hk, show kv = (kv.1, kv.2) from rfl, alookup_cons, alookup_cons,
          if_neg hk, if_neg hk]
      exact ih

theorem alookup_append_self {α : Type} (d : List (String × α)) (k : String)
    (x : α) (h : alookup d k = none) : alookup (d ++ [(k, x)]) k = some x := by
  induction d with
  | nil => simp [alookup, List.find?]
  | cons kv d ih =>
    rw [show kv = (kv.1, kv.2) from rfl, alookup_cons] at h
    rw [List.cons_append, show kv = (kv.1, kv.2) from rfl, alookup_cons]
    by_cases hk : kv.1 = k
    · rw [if_pos hk] at h
      exact absurd h (by simp)
    · rw [if_neg hk] at h
      rw [if_neg hk]
      exact ih h

theorem alookup_map_snd {α β : Type} (d : List (String × α)) (f : α → β)
    (k : String) :
    alookup (d.map (fun kv => (kv.1, f kv.2))) k = (alookup d k).map f := by
  induction d with
  | nil => simp [alookup]
  | cons kv d ih =>
    rw [List.map_cons, alookup_cons, show kv = (kv.1, kv.2) from rfl, alookup_cons]
    by_cases hk : kv.1 = k <;> simp [hk, ih]

theorem alookup_some_key_mem {α : Type} {d : List (String × α)} {k : String}
    {v : α} (h : alookup d k = some v) : k ∈ d.map Prod.fst := by
  induction d with
  | nil => simp [alookup] at h
  | cons kv d ih =>
    rw [show kv = (kv.1, kv.2) from rfl, alookup_cons] at h
    by_cases hk : kv.1 = k
    · rw [List.map_cons]
      exact hk ▸ List.mem_cons_self _ _
    · rw [if_neg hk] at h
      exact List.mem_cons_of_mem _ (ih h)

theorem groupBySection_eq_fold (terms : List (String × GlossaryTerm)) :
    groupBySection terms = terms.foldl (fun acc kv => groupAppend acc kv.2) [] := rfl

theorem groupAppend_lookup_self (acc : List (String × List GlossaryTerm))
    (t : GlossaryTerm) :
    ∃ g, alookup (groupAppend acc t) t.sect = some g ∧ t ∈ g := by
  unfold groupAppend
  by_cases hany : acc.any (fun g => g.1 = t.sect) = true
  · have hupd := alookup_map_update_eq acc t.sect (fun x => x ++ [t])
    simp only [] at hupd
    rw [if_pos hany, hupd]
    have hs : (alookup acc t.sect).isSome = true := by
      rw [alookup_isSome_iff]
      exact hany
    obtain ⟨g0, hg0⟩ := Option.isSome_iff_exists.mp hs
    exact ⟨g0 ++ [t], by rw [hg0]; rfl, by simp⟩
  · rw [if_neg hany]
    have hnone : alookup acc t.sect = none := by
      cases halo : alookup acc t.sect with
      | none => rfl
      | some g =>
        exfalso
        apply hany
        rw [← alookup_isSome_iff, halo]
        rfl
    exact ⟨[t], alookup_append_self acc t.sect [t] hnone, by simp⟩

theorem groupAppend_mono {acc : List (String × List GlossaryTerm)} {s : String}
    {g : List GlossaryTerm} (t : GlossaryTerm)
    (h : alookup acc s = some g) :
    ∃ g2, alookup (groupAppend acc t) s = some g2 ∧ ∀ x ∈ g, x ∈ g2 := by
  unfold groupAppend
  by_cases hany : acc.any (fun g => g.1 = t.sect) = true
  · rw [if_pos hany]
    by_cases hs : s = t.sect
    · subst hs
      have hupd := alookup_map_update_eq acc t.sect (fun x => x ++ [t])
      simp only [] at hupd
      rw [hupd, h]
      exact ⟨g ++ [t], rfl, fun x hx => by simp [hx]⟩
    · have hupd := alookup_map_updateKey acc t.sect s
        (fun x => x ++ [t]) (fun hc => hs hc.symm)
      simp only [] at hupd
      rw [hupd, h]
      exact ⟨g, rfl, fun x hx => hx⟩
  · rw [if_neg hany]
    by_cases hs : s = t.sect
    · subst hs
      exfalso
      apply hany
      rw [← alookup_isSome_iff, h]
      rfl
    · rw [alookup_append_one acc t.sect s [t] (fun hc => hs hc.symm), h]
      exact ⟨g, rfl, fun x hx => hx⟩

theorem groupFold_mono (ts : List (String × GlossaryTerm))
    (acc : List (String × List GlossaryTerm)) (s : String) (g : List GlossaryTerm)
    (h : alookup acc s = some g) :
    ∃ g2, alookup (ts.foldl (fun acc kv => groupAppend acc kv.2) acc) s = some g2 ∧
      ∀ x ∈ g, x ∈ g2 := by
  induction ts generalizing acc g with
  | nil => exact ⟨g, h, fun x hx => hx⟩
  | cons kv ts ih =>
    rw [List.foldl_cons]
    obtain ⟨g1, hg1, hsub1⟩ := groupAppend_mono kv.2 h
    obtain ⟨g2, hg2, hsub2⟩ := ih _ _ hg1
    exact ⟨g2, hg2, fun x hx => hsub2 x (hsub1 x hx)⟩

theorem groupFold_mem (ts : List (String × GlossaryTerm))
    (kv : String × GlossaryTerm) :
    kv ∈ ts → ∀ acc, ∃ g,
      alookup (ts.foldl (fun acc kv => groupAppend acc kv.2) acc) kv.2.sect =
        some g ∧ kv.2 ∈ g := by
  induction ts with
  | nil =>
    intro h
    exact absurd h (by simp)
  | cons kv0 ts ih =>
    intro h acc
    rw [List.foldl_cons]
    rcases List.mem_cons.mp h with heq | hmem
    · subst heq
      obtain ⟨g1, hg1, ht1⟩ := groupAppend_lookup_self acc kv.2
      obtain ⟨g2, hg2, hsub⟩ := groupFold_mono ts _ _ _ hg1
      exact ⟨g2, hg2, hsub _ ht1⟩
    · exact ih hmem (groupAppend acc kv0.2)

theorem groupBySection_mem (terms : List (String × GlossaryTerm))
    (kv : String × GlossaryTerm) (h : kv ∈ terms) :
    ∃ g, alookup (groupBySection terms) kv.2.sect = some g ∧ kv.2 ∈ g := by
  rw [groupBySection_eq_fold]
  exact groupFold_mem terms kv h []

theorem strAppend_assoc (a b c : String) : (a ++ b) ++ c = a ++ (b ++ c) := by
  cases a with | mk da =>
  cases b with | mk db =>
  cases c with | mk dc =>
  show String.mk _ = String.mk _
  simp [String.data_append, List.append_assoc]

theorem refText_shape (rs : List TermReference) :
    refText rs = "*Referenced in: " ++
      joinSep (", ") (((List.insertionSort refLe rs).map refLink).take 5) ++
      (if rs.length > 5 then " and " ++ toString (rs.length - 5) ++ " more*"
       else "*") := by
  unfold refText
  by_cases h5 : rs.length > 5
  · rw [if_pos h5, if_pos h5]
    simp [strAppend_assoc]
  · rw [if_neg h5, if_neg h5]

theorem refText_mem_termBlock (refsMap : List (String × List TermReference))
    (t : GlossaryTerm) (rs : List TermReference)
    (hrs : alookup refsMap (pyLower t.name) = some rs) (hne : rs ≠ []) :
    refText rs ∈ termBlock (some refsMap) true t := by
  have hstep : termBlock (some refsMap) true t =
      ["### " ++ t.name, "", t.definition] ++
        (match alookup refsMap (pyLower t.name) with
         | some rs => if rs.length ≠ 0 then ["", refText rs] else []
         | none => []) ++ [""] := rfl
  rw [hstep, hrs]
  have hlen : rs.length ≠ 0 := by simpa using hne
  simp [hlen]

theorem refText_mem_renderLines (terms : List (String × GlossaryTerm))
    (refsMap : List (String × List TermReference)) (supp : String)
    (k0 : String) (t : GlossaryTerm) (rs : List TermReference)
    (hmem : (k0, t) ∈ terms)
    (hrs : alookup refsMap (pyLower t.name) = some rs)
    (hne : rs ≠ []) :
    refText rs ∈ renderLines terms (some refsMap) supp true := by
  obtain ⟨g, hg, htg⟩ := groupBySection_mem terms (k0, t) hmem
  have hsec : alookup ((groupBySection terms).map
      (fun g => (g.1, List.insertionSort termLe g.2))) t.sect =
      some (List.insertionSort termLe g) := by
    have h := alookup_map_snd (groupBySection terms)
      (fun x => List.insertionSort termLe x) t.sect
    simp only [] at h
    rw [h, hg]
    rfl
  unfold renderLines
  apply List.mem_append.mpr
  left
  apply List.mem_append.mpr
  left
  apply List.mem_append.mpr
  right
  apply List.mem_flatMap.mpr
  refine ⟨t.sect, ?_, ?_⟩
  · rw [List.mem_insertionSort]
    exact alookup_some_key_mem hsec
  · apply List.mem_append.mpr
    right
    rw [hsec]
    apply List.mem_flatMap.mpr
    exact ⟨t, (List.mem_insertionSort termLe).mpr htg,
      refText_mem_termBlock refsMap t rs hrs hne⟩

/-! ### Header extraction from rendered text (for the ordering claim) -/

/-- Recognize an emitted alphabetical section header line `## <Letter>`. -/
def rawSection? (l : String) : Option Char :=
  match l.data with
  | '#' :: '#' :: ' ' :: c :: [] => if 'A' ≤ c && c ≤ 'Z' then some c else none
  | _ => none

/-- Recognize an emitted term header line `### <name>` and return the name. -/
def rawTerm? (l : String) : Option String :=
  match l.data with
  | '#' :: '#' :: '#' :: ' ' :: rest => some (String.mk rest)
  | _ => none

/-- A line that is neither kind of header. -/
def cleanLine (l : String) : Bool := (rawSection? l).isNone && (rawTerm? l).isNone

/-- No newline characters. -/
def noNl (s : String) : Bool := s.data.all (fun c => c ≠ '\n')

/-- Every line of a definition body is clean. -/
def cleanDef (d : String) : Bool := (splitNl d).all cleanLine

/-- Append a term name to the latest section group seen. -/
def appendLast (acc : List (Char × List String)) (n : String) :
    List (Char × List String) :=
  match acc with
  | [] => []
  | [(c, ns)] => [(c, ns ++ [n])]
  | g :: rest => g :: appendLast rest n

/-- One line of the header walk: open a new section group on a section
header, file a term name under the latest group on a term header, otherwise
no change. -/
def walkStep (acc : List (Char × List String)) (l : String) :
    List (Char × List String) :=
  match rawSection? l with
  | some c => acc ++ [(c, [])]
  | none =>
    match rawTerm? l with
    | some n => appendLast acc n
    | none => acc

/-- Section letters with their term names, in order of appearance in a list
of lines. -/
def walkHeaders (ls : List String) : List (Char × List String) :=
  ls.foldl walkStep []

theorem splitNlL_ne_nil (l : List Char) : splitNlL l ≠ [] := by
  cases l with
  | nil => simp [splitNlL]
  | cons c rest =>
    rw [splitNlL]
    by_cases hc : c = '\n'
    · rw [if_pos hc]
      simp
    · rw [if_neg hc]
      cases h : splitNlL rest <;> simp

theorem splitNlL_append_nl (x y : List Char) :
    splitNlL (x ++ '\n' :: y) = splitNlL x ++ splitNlL y := by
  induction x with
  | nil => rfl
  | cons c x ih =>
    rw [List.cons_append, splitNlL, splitNlL]
    by_cases hc : c = '\n'
    · rw [if_pos hc, if_pos hc, ih]
      rfl
    · rw [if_neg hc, if_neg hc, ih]
      cases h : splitNlL x with
      | nil => exact absurd h (splitNlL_ne_nil x)
      | cons g gs => rfl

theorem splitNlL_no_nl (l : List Char) (h : l.all (fun c => c ≠ '\n') = true) :
    splitNlL l = [l] := by
  induction l with
  | nil => rfl
  | cons c rest ih =>
    rw [List.all_cons] at h
    obtain ⟨hc, hrest⟩ := And.intro (Bool.and_elim_left h) (Bool.and_elim_right h)
    rw [splitNlL, if_neg (by simpa using hc), ih hrest]

theorem splitNl_no_nl (s : String) (h : noNl s = true) : splitNl s = [s] := by
  unfold splitNl
  rw [splitNlL_no_nl s.data h]
  rfl

theorem joinNl_data_cons (x : String) (y : String) (ls : List String) :
    (joinNl (x :: y :: ls)).data = x.data ++ '\n' :: (joinNl (y :: ls)).data := rfl

theorem splitNl_joinNl (ls : List String) (hne : ls ≠ []) :
    splitNl (joinNl ls) = ls.flatMap splitNl := by
  induction ls with
  | nil => exact absurd rfl hne
  | cons l ls ih =>
    cases ls with
    | nil => simp [splitNl, joinNl, joinNlL]
    | cons l2 ls2 =>
      unfold splitNl
      rw [joinNl_data_cons, splitNlL_append_nl, List.map_append]
      rw [show (splitNlL (joinNl (l2 :: ls2)).data).map String.mk =
        splitNl (joinNl (l2 :: ls2)) from rfl]
      rw [ih (by simp)]
      rw [List.flatMap_cons]
      rfl

theorem walkStep_clean (acc : List (Char × List String)) (l : String)
    (h : cleanLine l = true) : walkStep acc l = acc := by
  unfold cleanLine at h
  rw [Bool.and_eq_true] at h
  obtain ⟨h1, h2⟩ := h
  rw [Option.isNone_iff_eq_none] at h1 h2
  unfold walkStep
  rw [h1, h2]

theorem walkFold_clean (ls : List String) (h : ls.all cleanLine = true)
    (acc : List (Char × List String)) : ls.foldl walkStep acc = acc := by
  induction ls generalizing acc with
  | nil => rfl
  | cons l ls ih =>
    rw [List.all_cons, Bool.and_eq_true] at h
    rw [List.foldl_cons, walkStep_clean acc l h.1]
    exact ih h.2 acc

theorem appendLast_snoc (acc : List (Char × List String)) (c : Char)
    (ns : List String) (n : String) :
    appendLast (acc ++ [(c, ns)]) n = acc ++ [(c, ns ++ [n])] := by
  induction acc with
  | nil => rfl
  | cons g rest ih =>
    cases rest with
    | nil => rfl
    | cons g2 rest2 =>
      show g :: appendLast ((g2 :: rest2) ++ [(c, ns)]) n =
        g :: ((g2 :: rest2) ++ [(c, ns ++ [n])])
      rw [ih]

theorem rawSection?_header (L : String) (c : Char) (hL : L.data = [c]) :
    rawSection? ("## " ++ L) =
      if 'A' ≤ c && c ≤ 'Z' then some c else none := by
  have hdata : ("## " ++ L).data = ['#', '#', ' ', c] := by
    rw [String.data_append, hL]
    rfl
  unfold rawSection?
  rw [hdata]
  rfl

theorem rawSection?_term (n : String) : rawSection? ("### " ++ n) = none := by
  have hdata : ("### " ++ n).data = '#' :: '#' :: '#' :: ' ' :: n.data := by
    rw [String.data_append]
    rfl
  unfold rawSection?
  rw [hdata]
  rfl

theorem rawTerm?_term (n : String) : rawTerm? ("### " ++ n) = some n := by
  have hdata : ("### " ++ n).data = '#' :: '#' :: '#' :: ' ' :: n.data := by
    rw [String.data_append]
    rfl
  unfold rawTerm?
  rw [hdata]
  rfl

theorem walkStep_sectionLine (acc : List (Char × List String)) (L : String)
    (c : Char) (hL : L.data = [c]) (hc : ('A' ≤ c && c ≤ 'Z') = true) :
    walkStep acc ("## " ++ L) = acc ++ [(c, [])] := by
  unfold walkStep
  rw [rawSection?_header L c hL, if_pos hc]

theorem walkStep_termLine (acc : List (Char × List String)) (n : String) :
    walkStep acc ("### " ++ n) = appendLast acc n := by
  unfold walkStep
  rw [rawSection?_term, rawTerm?_term]

theorem termBlock_plain (t : GlossaryTerm) :
    termBlock none false t = ["### " ++ t.name, "", t.definition, ""] := rfl

theorem noNl_append (a b : String) : noNl (a ++ b) = (noNl a && noNl b) := by
  unfold noNl
  rw [String.data_append, List.all_append]

theorem rawSection?_ne_hash {l : String} {c : Char} {rest : List Char}
    (hdata : l.data = c :: rest) (hc : c ≠ '#') : rawSection? l = none := by
  unfold rawSection?
  rw [hdata]
  split
  · rename_i heq
    injection heq with h1 _
    exact absurd h1 hc
  · rfl

theorem rawTerm?_ne_hash {l : String} {c : Char} {rest : List Char}
    (hdata : l.data = c :: rest) (hc : c ≠ '#') : rawTerm? l = none := by
  unfold rawTerm?
  rw [hdata]
  split
  · rename_i heq
    injection heq with h1 _
    exact absurd h1 hc
  · rfl

theorem cleanLine_ne_hash {l : String} {c : Char} {rest : List Char}
    (hdata : l.data = c :: rest) (hc : c ≠ '#') : cleanLine l = true := by
  unfold cleanLine
  rw [rawSection?_ne_hash hdata hc, rawTerm?_ne_hash hdata hc]
  rfl

theorem digitChar_benign (m : Nat) (h : m < 10) :
    Nat.digitChar m ≠ '\n' ∧ Nat.digitChar m ≠ '#' := by
  interval_cases m <;> exact ⟨by decide, by decide⟩

theorem toDigitsCore_benign (fuel : Nat) :
    ∀ (n : Nat) (ds : List Char), (∀ c ∈ ds, c ≠ '\n' ∧ c ≠ '#') →
    ∀ c ∈ Nat.toDigitsCore 10 fuel n ds, c ≠ '\n' ∧ c ≠ '#' := by
  induction fuel with
  | zero => exact fun n ds hds => hds
  | succ fuel ih =>
    intro n ds hds
    rw [Nat.toDigitsCore]
    have hd : Nat.digitChar (n % 10) ≠ '\n' ∧ Nat.digitChar (n % 10) ≠ '#' :=
      digitChar_benign _ (Nat.mod_lt _ (by norm_num))
    split
    · intro c hc
      rcases List.mem_cons.mp hc with h | h
      · rw [h]; exact hd
      · exact hds c h
    · refine ih _ _ ?_
      intro c hc
      rcases List.mem_cons.mp hc with h | h
      · rw [h]; exact hd
      · exact hds c h

theorem natRepr_benign (n : Nat) :
    ∀ c ∈ (Nat.repr n).data, c ≠ '\n' ∧ c ≠ '#' := by
  intro c hc
  exact toDigitsCore_benign (n + 1) n [] (by simp) c hc

/-- The `**Total Terms**` footer line for any term count is a single clean
line. -/
theorem totalTermsLine_ok (n : Nat) :
    noNl ("**Total Terms**: " ++ toString n ++ "+") = true ∧
    cleanLine ("**Total Terms**: " ++ toString n ++ "+") = true := by
  have hrepr : toString n = Nat.repr n := rfl
  constructor
  · rw [noNl_append, noNl_append]
    have h1 : noNl ("**Total Terms**: ") = true := by decide
    have h3 : noNl ("+") = true := by decide
    have h2 : noNl (toString n) = true := by
      rw [hrepr]
      unfold noNl
      rw [List.all_eq_true]
      intro c hc
      simpa using (natRepr_benign n c hc).1
    rw [h1, h2, h3]
    rfl
  · refine @cleanLine_ne_hash _ '*'
      (("*Total Terms**: ").data ++ (toString n).data ++ ("+").data) ?_
      (by decide)
    rw [String.data_append, String.data_append]
    rfl

theorem walk_termLines (t : GlossaryTerm) (hname : noNl t.name = true)
    (hdef : cleanDef t.definition = true) (pre : List (Char × List String))
    (c : Char) (ns : List String) :
    ((termBlock none false t).flatMap splitNl).foldl walkStep (pre ++ [(c, ns)]) =
      pre ++ [(c, ns ++ [t.name])] := by
  rw [termBlock_plain]
  have h1 : splitNl ("### " ++ t.name) = ["### " ++ t.name] := by
    apply splitNl_no_nl
    rw [noNl_append, hname]
    rfl
  rw [show (["### " ++ t.name, "", t.definition, ""].flatMap splitNl) =
      splitNl ("### " ++ t.name) ++ (splitNl ("") ++
        (splitNl t.definition ++ (splitNl ("") ++ []))) from rfl]
  rw [h1]
  rw [List.foldl_append, List.foldl_append, List.foldl_append, List.foldl_append]
  rw [show List.foldl walkStep (pre ++ [(c, ns)]) ["### " ++ t.name] =
      walkStep (pre ++ [(c, ns)]) ("### " ++ t.name) from rfl]
  rw [walkStep_termLine, appendLast_snoc]
  rw [walkFold_clean (splitNl ("")) (by decide) _]
  rw [walkFold_clean (splitNl t.definition) hdef _]
  rw [walkFold_clean (splitNl ("")) (by decide) _]
  rfl

theorem walk_groupTerms (ts : List GlossaryTerm)
    (h : ∀ t ∈ ts, noNl t.name = true ∧ cleanDef t.definition = true)
    (pre : List (Char × List String)) (c : Char) (ns : List String) :
    ((ts.flatMap (termBlock none false)).flatMap splitNl).foldl walkStep
        (pre ++ [(c, ns)]) =
      pre ++ [(c, ns ++ ts.map (fun t => t.name))] := by
  induction ts generalizing ns with
  | nil => simp
  | cons t ts ih =>
    rw [List.flatMap_cons, List.flatMap_append, List.foldl_append]
    obtain ⟨hn, hd⟩ := h t (List.mem_cons_self _ _)
    rw [walk_termLines t hn hd pre c ns]
    rw [ih (fun x hx => h x (List.mem_cons_of_mem _ hx)) (ns ++ [t.name])]
    simp

theorem walk_sectionBlock (L : String) (c : Char) (hL : L.data = [c])
    (hc : ('A' ≤ c && c ≤ 'Z') = true) (ts : List GlossaryTerm)
    (h : ∀ t ∈ ts, noNl t.name = true ∧ cleanDef t.definition = true)
    (acc : List (Char × List String)) :
    (((["## " ++ L, ""] ++ ts.flatMap (termBlock none false)).flatMap
        splitNl).foldl walkStep acc) =
      acc ++ [(c, ts.map (fun t => t.name))] := by
  have hcnl : c ≠ '\n' := by
    intro hcon
    subst hcon
    simp at hc
  have hL1 : splitNl ("## " ++ L) = ["## " ++ L] := by
    apply splitNl_no_nl
    rw [noNl_append]
    have : noNl L = true := by
      unfold noNl
      rw [hL]
      simpa using hcnl
    rw [this]
    rfl
  rw [List.flatMap_append]
  rw [show ((["## " ++ L, ""]).flatMap splitNl) =
      splitNl ("## " ++ L) ++ (splitNl ("") ++ []) from rfl]
  rw [hL1, List.foldl_append, List.foldl_append, List.foldl_append]
  rw [show List.foldl walkStep acc ["## " ++ L] =
      walkStep acc ("## " ++ L) from rfl]
  rw [walkStep_sectionLine acc L c hL hc]
  rw [walkFold_clean (splitNl ("")) (by decide) _]
  rw [show List.foldl walkStep (acc ++ [(c, [])]) ([] : List String) =
      acc ++ [(c, [])] from rfl]
  have := walk_groupTerms ts h acc c []
  rw [this]
  rfl

theorem walk_secLines (sections : List (String × List GlossaryTerm))
    (letters : List String)
    (hL : ∀ L ∈ letters, ∃ c, L.data = [c] ∧ ('A' ≤ c && c ≤ 'Z') = true)
    (hT : ∀ L ∈ letters, ∀ t ∈ (alookup sections L).getD [],
      noNl t.name = true ∧ cleanDef t.definition = true)
    (acc : List (Char × List String)) :
    ((letters.flatMap (fun L => ["## " ++ L, ""] ++
        ((alookup sections L).getD []).flatMap (termBlock none false))).flatMap
      splitNl).foldl walkStep acc =
      acc ++ letters.map (fun L =>
        (L.data.headD ' ',
          ((alookup sections L).getD []).map (fun t => t.name))) := by
  induction letters generalizing acc with
  | nil => simp
  | cons L rest ih =>
    rw [List.flatMap_cons, List.flatMap_append, List.foldl_append]
    obtain ⟨c, hc1, hc2⟩ := hL L (List.mem_cons_self _ _)
    rw [walk_sectionBlock L c hc1 hc2 _ (hT L (List.mem_cons_self _ _)) acc]
    rw [ih (fun x hx => hL x (List.mem_cons_of_mem _ hx))
        (fun x hx => hT x (List.mem_cons_of_mem _ hx)) _]
    have hhead : L.data.headD ' ' = c := by rw [hc1]; rfl
    rw [List.map_cons, hhead]
    simp

theorem isSingleUpper_data {s : String} (h : isSingleUpper s = true) :
    ∃ c, s.data = [c] ∧ ('A' ≤ c && c ≤ 'Z') = true := by
  unfold isSingleUpper at h
  split at h
  · rename_i c heq
    exact ⟨c, heq, h⟩
  · exact absurd h (by simp)

theorem alookup_some_mem {α : Type} {d : List (String × α)} {k : String} {v : α}
    (h : alookup d k = some v) : (k, v) ∈ d := by
  induction d with
  | nil => simp [alookup] at h
  | cons kv d ih =>
    rw [show kv = (kv.1, kv.2) from rfl, alookup_cons] at h
    by_cases hk : kv.1 = k
    · rw [if_pos hk] at h
      injection h with h2
      subst hk
      subst h2
      exact List.mem_cons_self _ _
    · rw [if_neg hk] at h
      exact List.mem_cons_of_mem _ (ih h)

theorem keys_map_snd {α β : Type} (d : List (String × α)) (f : α → β) :
    (d.map (fun kv => (kv.1, f kv.2))).map Prod.fst = d.map Prod.fst := by
  rw [List.map_map]
  rfl

theorem groupAppend_keys_sub (acc : List (String × List GlossaryTerm))
    (t : GlossaryTerm) (k : String)
    (h : k ∈ (groupAppend acc t).map Prod.fst) :
    k ∈ acc.map Prod.fst ∨ k = t.sect := by
  unfold groupAppend at h
  split at h
  · left
    rw [List.map_map] at h
    obtain ⟨g, hg, heq⟩ := List.mem_map.mp h
    apply List.mem_map.mpr
    refine ⟨g, hg, ?_⟩
    by_cases hgs : g.1 = t.sect
    · simp only [Function.comp, if_pos hgs] at heq
      rw [← heq, hgs]
    · simp only [Function.comp, if_neg hgs] at heq
      rw [← heq]
  · rw [List.map_append] at h
    rcases List.mem_append.mp h with h | h
    · exact Or.inl h
    · simp only [List.map_cons, List.map_nil, List.mem_singleton] at h
      exact Or.inr h

theorem groupFold_keys_sub (ts : List (String × GlossaryTerm)) :
    ∀ (acc : List (String × List GlossaryTerm)) (k : String),
    k ∈ ((ts.foldl (fun acc kv => groupAppend acc kv.2) acc).map Prod.fst) →
    k ∈ acc.map Prod.fst ∨ ∃ kv ∈ ts, kv.2.sect = k := by
  induction ts with
  | nil => exact fun acc k h => Or.inl h
  | cons kv0 ts ih =>
    intro acc k h
    rw [List.foldl_cons] at h
    rcases ih _ k h with h2 | h2
    · rcases groupAppend_keys_sub acc kv0.2 k h2 with h3 | h3
      · exact Or.inl h3
      · exact Or.inr ⟨kv0, List.mem_cons_self _ _, h3.symm⟩
    · obtain ⟨kv, hkv, he⟩ := h2
      exact Or.inr ⟨kv, List.mem_cons_of_mem _ hkv, he⟩

theorem groupAppend_keys_nodup {acc : List (String × List GlossaryTerm)}
    (t : GlossaryTerm) (h : (acc.map Prod.fst).Nodup) :
    ((groupAppend acc t).map Prod.fst).Nodup := by
  unfold groupAppend
  split
  · have heq : (acc.map (fun g => if g.1 = t.sect then (g.1, g.2 ++ [t]) else g)).map
        Prod.fst = acc.map Prod.fst := by
      rw [List.map_map]
      apply List.map_congr_left
      intro g _
      by_cases hgs : g.1 = t.sect <;> simp [Function.comp, hgs]
    rw [heq]
    exact h
  · rename_i hany
    rw [List.map_append]
    simp only [List.map_cons, List.map_nil]
    rw [List.nodup_append]
    refine ⟨h, List.nodup_singleton _, ?_⟩
    intro x hx
    simp only [List.mem_singleton]
    intro hc
    subst hc
    obtain ⟨g, hg, heq⟩ := List.mem_map.mp hx
    exact absurd (List.any_eq_true.mpr ⟨g, hg, by simp [heq]⟩) hany

theorem groupFold_keys_nodup (ts : List (String × GlossaryTerm)) :
    ∀ (acc : List (String × List GlossaryTerm)),
    (acc.map Prod.fst).Nodup →
    (((ts.foldl (fun acc kv => groupAppend acc kv.2) acc)).map Prod.fst).Nodup := by
  induction ts with
  | nil => exact fun _ h => h
  | cons kv0 ts ih =>
    intro acc h
    rw [List.foldl_cons]
    exact ih _ (groupAppend_keys_nodup kv0.2 h)

theorem groupAppend_members {P : GlossaryTerm → Prop}
    {acc : List (String × List GlossaryTerm)} {t : GlossaryTerm}
    (hacc : ∀ g ∈ acc, ∀ x ∈ g.2, P x) (ht : P t) :
    ∀ g ∈ groupAppend acc t, ∀ x ∈ g.2, P x := by
  unfold groupAppend
  split
  · intro g hg x hx
    obtain ⟨g0, hg0, heq⟩ := List.mem_map.mp hg
    by_cases hgs : g0.1 = t.sect
    · rw [if_pos hgs] at heq
      subst heq
      simp only at hx
      rcases List.mem_append.mp hx with h | h
      · exact hacc g0 hg0 x h
      · simp only [List.mem_singleton] at h
        subst h
        exact ht
    · rw [if_neg hgs] at heq
      subst heq
      exact hacc g0 hg0 x hx
  · intro g hg x hx
    rcases List.mem_append.mp hg with h | h
    · exact hacc g h x hx
    · simp only [List.mem_singleton] at h
      subst h
      simp only [List.mem_singleton] at hx
      subst hx
      exact ht

theorem groupFold_members {P : GlossaryTerm → Prop}
    (ts : List (String × GlossaryTerm)) :
    ∀ (acc : List (String × List GlossaryTerm)),
    (∀ g ∈ acc, ∀ x ∈ g.2, P x) → (∀ kv ∈ ts, P kv.2) →
    ∀ g ∈ (ts.foldl (fun acc kv => groupAppend acc kv.2) acc), ∀ x ∈ g.2, P x := by
  induction ts with
  | nil => exact fun _ hacc _ => hacc
  | cons kv0 ts ih =>
    intro acc hacc hts
    rw [List.foldl_cons]
    exact ih _ (groupAppend_members hacc (hts kv0 (List.mem_cons_self _ _)))
      (fun kv hkv => hts kv (List.mem_cons_of_mem _ hkv))

theorem singleLe_lt {a b : String} {c1 c2 : Char} (ha : a.data = [c1])
    (hb : b.data = [c2]) (hle : strLe a b) (hne : a ≠ b) : c1 < c2 := by
  unfold strLe at hle
  rw [ha, hb] at hle
  rw [charLe] at hle
  rcases lt_trichotomy c1 c2 with h | h | h
  · exact h
  · exfalso
    apply hne
    subst h
    cases a with | mk da =>
    cases b with | mk db =>
    simp only [] at ha hb
    rw [ha, hb]
  · rw [if_neg (lt_asymm h), if_pos h] at hle
    exact absurd hle (by simp)

theorem walkHeaders_render (terms : List (String × GlossaryTerm))
    (hsect : ∀ kv ∈ terms, isSingleUpper kv.2.sect = true)
    (hname : ∀ kv ∈ terms, noNl kv.2.name = true)
    (hdef : ∀ kv ∈ terms, cleanDef kv.2.definition = true) :
    walkHeaders (splitNl (generate_glossary_content terms none ("") false)) =
      (List.insertionSort strLe (((groupBySection terms).map
          (fun g => (g.1, List.insertionSort termLe g.2))).map
        (fun g => g.1))).map
        (fun L => (L.data.headD ' ',
          ((alookup ((groupBySection terms).map
              (fun g => (g.1, List.insertionSort termLe g.2))) L).getD []).map
            (fun t => t.name))) := by
  have hkeys0 : ((groupBySection terms).map
      (fun g => (g.1, List.insertionSort termLe g.2))).map (fun g => g.1) =
      (groupBySection terms).map Prod.fst := keys_map_snd _ _
  have hLfact : ∀ L ∈ List.insertionSort strLe (((groupBySection terms).map
      (fun g => (g.1, List.insertionSort termLe g.2))).map (fun g => g.1)),
      ∃ c, L.data = [c] ∧ ('A' ≤ c && c ≤ 'Z') = true := by
    intro L hLmem
    rw [List.mem_insertionSort, hkeys0] at hLmem
    rcases groupFold_keys_sub terms [] L hLmem with h | ⟨kv, hkv, he⟩
    · simp at h
    · exact isSingleUpper_data (he ▸ hsect kv hkv)
  have hTfact : ∀ L ∈ List.insertionSort strLe (((groupBySection terms).map
      (fun g => (g.1, List.insertionSort termLe g.2))).map (fun g => g.1)),
      ∀ t ∈ (alookup ((groupBySection terms).map
        (fun g => (g.1, List.insertionSort termLe g.2))) L).getD [],
      noNl t.name = true ∧ cleanDef t.definition = true := by
    intro L _ t ht
    have hasnd := alookup_map_snd (groupBySection terms)
      (fun x => List.insertionSort termLe x) L
    simp only [] at hasnd
    rw [hasnd] at ht
    cases halo : alookup (groupBySection terms) L with
    | none =>
      rw [halo] at ht
      simp at ht
    | some g0 =>
      rw [halo] at ht
      have ht2 : t ∈ List.insertionSort termLe g0 := by simpa using ht
      rw [List.mem_insertionSort] at ht2
      have hmem0 := alookup_some_mem halo
      exact @groupFold_members
        (fun x => noNl x.name = true ∧ cleanDef x.definition = true) terms []
        (by simp)
        (fun kv hkv => ⟨hname kv hkv, hdef kv hkv⟩)
        (L, g0) hmem0 t ht2
  have hFL := splitNl_no_nl ("**Total Terms**: " ++ toString terms.length ++ "+")
    (totalTermsLine_ok terms.length).1
  unfold generate_glossary_content renderLines
  rw [if_neg (fun h : ("" : String) ≠ "" => h rfl)]
  rw [splitNl_joinNl _ (by simp)]
  unfold walkHeaders
  rw [List.flatMap_append, List.flatMap_append, List.flatMap_append]
  rw [List.foldl_append, List.foldl_append, List.foldl_append]
  rw [walkFold_clean _ (by decide) ([] : List (Char × List String))]
  rw [walk_secLines _ _ hLfact hTfact]
  rw [show (([] : List String).flatMap splitNl) = [] from rfl]
  rw [List.foldl_nil]
  rw [walkFold_clean _ ?hfoot _]
  · exact List.nil_append _
  case hfoot =>
    simp only [List.flatMap_cons, List.flatMap_nil, List.all_append,
      List.append_nil, hFL, List.all_cons, List.all_nil, Bool.and_true]
    rw [(totalTermsLine_ok terms.length).2]
    decide

/-! ### Claim theorems -/

/-- C1.  Round-trip idempotence fails on the code: for the glossary document
`"## A\n\n### Apple\n\nAutomated tool."` (one term, no supplementary sections),
parsing, rendering with the same (empty) supplementary text and no reference
data, and re-parsing does not reproduce the original mapping: the renderer's
footer is absorbed into the definition of the last term, because nothing
terminates the final definition before the footer when no supplementary
section header follows it. -/
theorem C1_roundtrip_footer_leak :
    reparseRendered ("## A\n\n### Apple\n\nAutomated tool.") ≠
      parse_existing_glossary (some ("## A\n\n### Apple\n\nAutomated tool.")) ∧
    parse_existing_glossary (some ("## A\n\n### Apple\n\nAutomated tool.")) =
      [("apple", { name := "Apple", definition := "Automated tool.", sect := "A" })] ∧
    (alookup (reparseRendered ("## A\n\n### Apple\n\nAutomated tool.")) ("apple")).map
        (fun t => t.definition) =
      some ("Automated tool.\n\n---\n\n**Total Terms**: 1+\n\nFor additional terms or clarifications, please refer to the specific language guides or open an issue on the\n[GitHub repository](https://github.com/tydukes/coding-style-guide/issues).") := by
  refine ⟨by decide, by decide, by decide⟩

/-- C5.  A missing glossary file is not an error: `parse_existing_glossary`
returns the empty mapping and `parse_supplementary_sections` the empty string
on a nonexistent path, and a run against any existing docs root with no
glossary file succeeds with zero parsed terms. -/
theorem C5_missing_glossary_not_error (docs : List (String × String)) :
    parse_existing_glossary none = [] ∧
    parse_supplementary_sections none = "" ∧
    run_generate (some { glossary := none, docs := docs }) =
      Except.ok (generate_glossary_content [] none ("") false, 0) :=
  ⟨rfl, rfl, rfl⟩

/-- C10.  On a `## <text>` line whose text is neither a single uppercase
letter nor a reserved supplementary-section name, the parser saves-and-clears
the pending term (the flush is skipped inside a non-term section, so a pending
term is discarded) and leaves both the current section letter and the
non-term-section flag unchanged; subsequent `###` headers therefore still file
under the previous alphabetical letter, and a supplementary section's ignore
mode is not ended. -/
theorem C10_unrecognized_header_step (st : ParseState) (l g : String)
    (hfm : st.inFrontmatter = false)
    (hg : hhGroup? l = some g)
    (hsec : sectionHeader? l = none)
    (hn : pyStrip g ∉ NON_TERM_SECTIONS) :
    parseLine st l =
      { st with terms := flushTerm st, currentTerm := "", currentDefLines := [] } := by
  have hshape : ∃ rest, pyStripL l.data = '#' :: '#' :: ' ' :: rest := by
    unfold hhGroup? at hg
    split at hg
    next rest heq => exact ⟨rest, heq⟩
    next => exact absurd hg (by simp)
  obtain ⟨rest, hr⟩ := hshape
  have hne : ¬(pyStrip l = "---") := by
    unfold pyStrip
    rw [hr]
    intro hcon
    have hd := congrArg String.data hcon
    simp at hd
  rw [parseLine]
  rw [if_neg (by simp [hne])]
  rw [if_neg hne]
  rw [parseLineRest]
  rw [if_neg (by simp [hfm])]
  rw [hsec, hg]
  simp [hn]

/-- Concrete parser state for the C10 witness: inside section A with a pending
term. -/
def c10state : ParseState :=
  { terms := [], currentSection := "A", currentTerm := "Foo",
    currentDefLines := ["x"], inFrontmatter := false, frontmatterCount := 2,
    inNonTermSection := false }

/-- Witness for C10 at a concrete state and a concrete unrecognized header. -/
theorem C10_unrecognized_header_step_witness :
    (c10state.inFrontmatter = false ∧
     hhGroup? ("## Random Header") = some ("Random Header") ∧
     sectionHeader? ("## Random Header") = none ∧
     pyStrip ("Random Header") ∉ NON_TERM_SECTIONS) ∧
    parseLine c10state ("## Random Header") =
      { c10state with terms := flushTerm c10state, currentTerm := "",
                      currentDefLines := [] } :=
  ⟨⟨rfl, by decide, by decide, by decide⟩,
   C10_unrecognized_header_step c10state ("## Random Header") ("Random Header")
     rfl (by decide) (by decide) (by decide)⟩

/-- Documents used to refute C2 as stated: the phrase `Foo` appears emphasized
in exactly two distinct documents (twice in the first). -/
def c2docs : List (String × String) :=
  [("a.md", "**Foo** and **Foo** again."), ("b.md", "**Foo** once.")]

/-- C2 counterexample.  The claim says a phrase appearing in exactly 2
distinct documents must be absent from the candidate mapping; on `c2docs` the
phrase `Foo` appears emphasized in only 2 distinct documents, yet the detector
returns it with count 3, because the code counts occurrences
(`candidates[term] += 1` per regex match), not distinct documents. -/
theorem C2_two_documents_counterexample :
    alookup (detect_candidate_terms c2docs []) ("Foo") = some 3 := by decide

/-- Documents used to refute C9 as stated: the same phrase emphasized with two
casings, twice each. -/
def c9docs : List (String × String) :=
  [("a.md", "**Foo**"), ("b.md", "**Foo**"), ("c.md", "**FOO**"), ("d.md", "**FOO**")]

/-- C9 counterexample.  The claim says different casings are recorded under a
single entry keyed by the first casing with the counts combined, which would
make `Foo` appear with count 4 here; the code keys the counter by the exact
emphasized text, so each casing tallies 2, below the threshold, and the
detector returns nothing at all. -/
theorem C9_casing_counterexample :
    detect_candidate_terms c9docs [] = [] := by decide

/-- Documents used to refute C8 as stated: a bold phrase that occurs only
inside inline code spans, in three documents. -/
def c8docs : List (String × String) :=
  [("a.md", "`**Tool Name**`"), ("b.md", "use `**Tool Name**` inline"),
   ("c.md", "`**Tool Name**`")]

theorem detect_fenced_aux (known : List String) (docs : List (String × String)) :
    ∀ acc, (∀ d ∈ docs, ∀ ch ∈ (d.2 : String).data, ch ≠ '`') →
    ((docs.map (fun d => (d.1, "```" ++ d.2 ++ "```"))).foldl
      (fun acc doc => if lastComponent doc.1 ∈ EXCLUDED_FILES then acc
        else tallyDoc known acc doc.2) acc) = acc := by
  induction docs with
  | nil => intro acc _; rfl
  | cons d docs ih =>
    intro acc h
    rw [List.map_cons, List.foldl_cons]
    have step : (if lastComponent d.1 ∈ EXCLUDED_FILES then acc
        else tallyDoc known acc ("```" ++ d.2 ++ "```")) = acc := by
      by_cases hx : lastComponent d.1 ∈ EXCLUDED_FILES
      · rw [if_pos hx]
      · rw [if_neg hx]
        unfold tallyDoc
        rw [stripFenced_fullyFenced d.2 (h d (List.mem_cons_self _ _))]
        rfl
    rw [step]
    exact ih acc (fun x hx => h x (List.mem_cons_of_mem _ hx))

theorem scan_fenced_aux (terms : List (String × GlossaryTerm))
    (docs : List (String × String)) :
    ∀ refs, (∀ d ∈ docs, ∀ ch ∈ (d.2 : String).data, ch ≠ '`') →
    ((docs.map (fun d => (d.1, "```" ++ d.2 ++ "```"))).foldl
      (fun refs doc => if lastComponent doc.1 ∈ EXCLUDED_FILES then refs
        else scanDocTerms doc.1 (stripInline (stripFenced doc.2)) terms refs)
      refs) = refs := by
  induction docs with
  | nil => intro refs _; rfl
  | cons d docs ih =>
    intro refs h
    rw [List.map_cons, List.foldl_cons]
    have step : (if lastComponent d.1 ∈ EXCLUDED_FILES then refs
        else scanDocTerms d.1
          (stripInline (stripFenced ("```" ++ d.2 ++ "```"))) terms refs) = refs := by
      by_cases hx : lastComponent d.1 ∈ EXCLUDED_FILES
      · rw [if_pos hx]
      · rw [if_neg hx]
        rw [stripFenced_fullyFenced d.2 (h d (List.mem_cons_self _ _))]
        exact scanDocTerms_empty_stripped d.1 terms refs
    rw [step]
    exact ih refs (fun x hx => h x (List.mem_cons_of_mem _ hx))

/-- C8 (amended).  The detector strips fenced code blocks exactly like the
scanner (a docs tree whose contents are entirely fenced yields no candidates
and no references), but unlike the scanner it does not strip inline code
spans: a phrase emphasized inside inline code spans is still counted by the
detector, while the scanner's inline stripping prevents any reference from
such text. -/
theorem C8_fenced_only_stripping :
    (∀ (docs : List (String × String)) (known : List String),
      (∀ d ∈ docs, ∀ ch ∈ (d.2 : String).data, ch ≠ '`') →
      detect_candidate_terms
        (docs.map (fun d => (d.1, "```" ++ d.2 ++ "```"))) known = []) ∧
    (∀ (docs : List (String × String)) (terms : List (String × GlossaryTerm)),
      (∀ d ∈ docs, ∀ ch ∈ (d.2 : String).data, ch ≠ '`') →
      scan_docs_for_term_usage
        (docs.map (fun d => (d.1, "```" ++ d.2 ++ "```"))) terms = []) ∧
    alookup (detect_candidate_terms c8docs []) ("Tool Name") = some 3 ∧
    alookup (scan_docs_for_term_usage [(("a.md"), ("`**Tool Name**` described"))]
        [(("tool name"), { name := "Tool Name", definition := "d", sect := "T" })])
      ("tool name") = none := by
  refine ⟨?_, ?_, by decide, by decide⟩
  · intro docs known h
    unfold detect_candidate_terms
    rw [detect_fenced_aux known docs [] h]
    rfl
  · intro docs terms h
    unfold scan_docs_for_term_usage
    rw [scan_fenced_aux terms docs [] h]

/-- Documents with no backticks, used for the C8 witness. -/
def c8plain : List (String × String) :=
  [("a.md", "**Bold Phrase** here"), ("b.md", "**Bold Phrase** too"),
   ("c.md", "**Bold Phrase** thrice")]

/-- Witness for C8: the fenced versions of three plain documents yield no
candidates and no references. -/
theorem C8_fenced_only_stripping_witness :
    ((∀ d ∈ c8plain, ∀ ch ∈ (d.2 : String).data, ch ≠ '`') ∧
      detect_candidate_terms
        (c8plain.map (fun d => (d.1, "```" ++ d.2 ++ "```"))) [] = []) ∧
    scan_docs_for_term_usage
      (c8plain.map (fun d => (d.1, "```" ++ d.2 ++ "```"))) tfTerms = [] :=
  ⟨⟨by decide, C8_fenced_only_stripping.1 c8plain [] (by decide)⟩,
   C8_fenced_only_stripping.2.1 c8plain tfTerms (by decide)⟩

/-- C8 counterexample.  The claim says an emphasized phrase occurring only
inside inline code spans is never counted; the detector strips only fenced
blocks (not inline spans, unlike the scanner), so the phrase is counted in all
three documents. -/
theorem C8_inline_span_counterexample :
    alookup (detect_candidate_terms c8docs []) ("Tool Name") = some 3 := by decide

/-- C4 (amended).  Every term in the parser's output has a section that is
either the single uppercase letter of a true alphabetical section header
(`## <Letter>`) occurring in the document, or the empty string when no
alphabetical header preceded the term's header; it is never the name of a
supplementary (non-term) section. -/
theorem C4_section_letter_or_empty (content : String) :
    ∀ kv ∈ parse_existing_glossary (some content),
      (kv.2.sect = "" ∨ ∃ c, ('A' ≤ c ∧ c ≤ 'Z') ∧ kv.2.sect = String.mk [c] ∧
        ∃ l ∈ splitNl content, sectionHeader? l = some c) ∧
      kv.2.sect ∉ NON_TERM_SECTIONS := by
  intro kv hkv
  have hfold := foldl_parseLine_sectFrom (splitNl content) (splitNl content)
    initParseState (fun _ hl => hl) (Or.inl rfl)
    (by intro kv h; simp [initParseState] at h)
  have hterms := flushTerm_sectFrom hfold.1 hfold.2
  have hsf : sectFrom (splitNl content) kv.2.sect := hterms kv hkv
  refine ⟨hsf, ?_⟩
  rcases hsf with h | ⟨c, _, heq, _⟩
  · rw [h]
    decide
  · rw [heq]
    intro hmem
    simp only [NON_TERM_SECTIONS, List.mem_cons, List.not_mem_nil, or_false] at hmem
    rcases hmem with h | h | h
    all_goals
      have hlen := congrArg String.length h
      simp [String.length] at hlen

/-- Witness for C4 at a concrete document with one alphabetical section. -/
theorem C4_section_letter_or_empty_witness :
    ("apple", ({ name := "Apple", definition := "Fruit.", sect := "A" } : GlossaryTerm)) ∈
      parse_existing_glossary (some ("## A\n### Apple\nFruit.")) ∧
    ((("apple", ({ name := "Apple", definition := "Fruit.", sect := "A" } :
        GlossaryTerm)).2.sect = "" ∨
      ∃ c, ('A' ≤ c ∧ c ≤ 'Z') ∧
        (("apple", ({ name := "Apple", definition := "Fruit.", sect := "A" } :
          GlossaryTerm)).2.sect = String.mk [c]) ∧
        ∃ l ∈ splitNl ("## A\n### Apple\nFruit."), sectionHeader? l = some c) ∧
     (("apple", ({ name := "Apple", definition := "Fruit.", sect := "A" } :
        GlossaryTerm)).2.sect ∉ NON_TERM_SECTIONS)) :=
  ⟨by decide,
   C4_section_letter_or_empty ("## A\n### Apple\nFruit.")
     ("apple", { name := "Apple", definition := "Fruit.", sect := "A" }) (by decide)⟩

/-- C2 (amended).  The candidate threshold is on total emphasized occurrences,
not distinct documents: a filtered bold phrase whose total occurrence count
across non-excluded documents is at most 2 is absent from the detector's
mapping, and one with 3 or more total occurrences is present with its count
equal to that total. -/
theorem C2_occurrence_threshold (docs : List (String × String))
    (known : List String) (k : String) :
    (occTotal docs known k ≤ 2 →
      alookup (detect_candidate_terms docs known) k = none) ∧
    (3 ≤ occTotal docs known k →
      alookup (detect_candidate_terms docs known) k =
        some (occTotal docs known k)) := by
  constructor
  · intro h
    rw [detect_lookup, if_neg (by omega)]
  · intro h
    rw [detect_lookup, if_pos h]

/-- Witness for C2 at the concrete documents `c2docs`. -/
theorem C2_occurrence_threshold_witness :
    3 ≤ occTotal c2docs [] ("Foo") ∧
    alookup (detect_candidate_terms c2docs []) ("Foo") =
      some (occTotal c2docs [] ("Foo")) :=
  ⟨by decide, (C2_occurrence_threshold c2docs [] ("Foo")).2 (by decide)⟩

/-- C9 (amended).  Casings are separate, independent entries: any entry the
detector returns records exactly the occurrence count of its own exact casing,
and on concrete inputs two casings of the same phrase are neither merged nor
normalized — two occurrences of each casing yield nothing, and adding a third
`Foo` makes only the entry `Foo` appear (count 3) while `FOO` stays absent. -/
theorem C9_casing_separate_entries :
    (∀ (docs : List (String × String)) (known : List String) (p : String),
      alookup (detect_candidate_terms docs known) p = none ∨
      alookup (detect_candidate_terms docs known) p = some (occTotal docs known p)) ∧
    alookup (detect_candidate_terms c9docs []) ("Foo") = none ∧
    alookup (detect_candidate_terms c9docs []) ("FOO") = none ∧
    alookup (detect_candidate_terms (c9docs ++ [("e.md", "**Foo**")]) []) ("Foo") =
      some 3 ∧
    alookup (detect_candidate_terms (c9docs ++ [("e.md", "**Foo**")]) []) ("FOO") =
      none := by
  refine ⟨?_, by decide, by decide, by decide, by decide⟩
  intro docs known p
  rw [detect_lookup]
  by_cases h : 3 ≤ occTotal docs known p
  · right
    rw [if_pos h]
  · left
    rw [if_neg h]

/-- C7.  Cross-reference cap: when cross-referencing is enabled and a term
has a non-empty reference list, the rendered lines contain that term's
`*Referenced in: …` line; the line shows the sorted reference links truncated
to at most five, and when there are more than five references it ends with
`and N more*` where `N` is the number of references beyond the first five. -/
theorem C7_reference_cap (terms : List (String × GlossaryTerm))
    (refsMap : List (String × List TermReference)) (supp : String)
    (k0 : String) (t : GlossaryTerm) (rs : List TermReference)
    (hmem : (k0, t) ∈ terms)
    (hrs : alookup refsMap (pyLower t.name) = some rs)
    (hne : rs ≠ []) :
    refText rs ∈ renderLines terms (some refsMap) supp true ∧
    refText rs = "*Referenced in: " ++
      joinSep (", ") (((List.insertionSort refLe rs).map refLink).take 5) ++
      (if rs.length > 5 then " and " ++ toString (rs.length - 5) ++ " more*"
       else "*") ∧
    (((List.insertionSort refLe rs).map refLink).take 5).length ≤ 5 ∧
    (5 < rs.length →
      ∃ pre, refText rs =
        pre ++ (" and " ++ toString (rs.length - 5) ++ " more*")) := by
  refine ⟨refText_mem_renderLines terms refsMap supp k0 t rs hmem hrs hne,
    refText_shape rs, ?_, ?_⟩
  · rw [List.length_take]
    exact min_le_left _ _
  · intro h5
    refine ⟨"*Referenced in: " ++
      joinSep (", ") (((List.insertionSort refLe rs).map refLink).take 5), ?_⟩
    rw [refText_shape rs, if_pos h5]

/-- Seven concrete references for the C7 witness. -/
def c7refs : List TermReference :=
  [{ file_path := "d1.md", display_path := "d1.md" },
   { file_path := "d2.md", display_path := "d2.md" },
   { file_path := "d3.md", display_path := "d3.md" },
   { file_path := "d4.md", display_path := "d4.md" },
   { file_path := "d5.md", display_path := "d5.md" },
   { file_path := "d6.md", display_path := "d6.md" },
   { file_path := "d7.md", display_path := "d7.md" }]

/-- A one-term mapping for the C7 witness. -/
def c7terms : List (String × GlossaryTerm) :=
  [("apple", { name := "Apple", definition := "Fruit.", sect := "A" })]

/-- Witness for C7 at a term with seven references. -/
theorem C7_reference_cap_witness :
    (("apple", ({ name := "Apple", definition := "Fruit.", sect := "A" } :
        GlossaryTerm)) ∈ c7terms ∧
     alookup [(("apple"), c7refs)]
        (pyLower ({ name := "Apple", definition := "Fruit.", sect := "A" } :
          GlossaryTerm).name) = some c7refs ∧
     c7refs ≠ []) ∧
    (refText c7refs ∈ renderLines c7terms (some [(("apple"), c7refs)]) ("") true ∧
     refText c7refs = "*Referenced in: " ++
       joinSep (", ") (((List.insertionSort refLe c7refs).map refLink).take 5) ++
       (if c7refs.length > 5 then
          " and " ++ toString (c7refs.length - 5) ++ " more*"
        else "*") ∧
     (((List.insertionSort refLe c7refs).map refLink).take 5).length ≤ 5 ∧
     (5 < c7refs.length →
       ∃ pre, refText c7refs =
         pre ++ (" and " ++ toString (c7refs.length - 5) ++ " more*"))) :=
  ⟨⟨by decide, by decide, by decide⟩,
   C7_reference_cap c7terms [(("apple"), c7refs)] ("") ("apple")
     { name := "Apple", definition := "Fruit.", sect := "A" } c7refs
     (by decide) (by decide) (by decide)⟩

/-- The glossary entry used in the whole-word matching claim. -/
def tfTerm : GlossaryTerm :=
  { name := "Terraform", definition := "IaC tool.", sect := "T" }

/-- A one-term mapping holding the `Terraform` entry under its lowercase key. -/
def tfTerms : List (String × GlossaryTerm) := [("terraform", tfTerm)]

/-- C6.  Whole-word matching in the usage scanner: terms whose base name is
shorter than 2 characters are skipped entirely (never get a reference list);
a non-excluded document registers a reference for the `Terraform` term exactly
when the whole-word case-insensitive pattern finds the base name in the
code-stripped content; concretely, a document containing the word `Terraform`
(in any casing) yields the reference and one containing only `Terraforming`
yields none. -/
theorem C6_whole_word_matching :
    (∀ (docs : List (String × String)) (terms : List (String × GlossaryTerm))
        (k : String),
      (∀ kv ∈ terms, kv.1 = k → (termBaseName kv.2).length < 2) →
      alookup (scan_docs_for_term_usage docs terms) k = none) ∧
    (∀ p c : String, lastComponent p ∉ EXCLUDED_FILES →
      alookup (scan_docs_for_term_usage [(p, c)] tfTerms) ("terraform") =
        (if wordSearch ("Terraform") (stripInline (stripFenced c)) then
          some [{ file_path := p, display_path := p }]
        else none)) ∧
    alookup (scan_docs_for_term_usage [(("guide.md"), ("We use Terraform here."))]
        tfTerms) ("terraform") =
      some [{ file_path := "guide.md", display_path := "guide.md" }] ∧
    alookup (scan_docs_for_term_usage
        [(("guide.md"), ("All about Terraforming today."))] tfTerms) ("terraform") =
      none ∧
    alookup (scan_docs_for_term_usage [(("guide.md"), ("using TERRAFORM now"))]
        tfTerms) ("terraform") =
      some [{ file_path := "guide.md", display_path := "guide.md" }] := by
  refine ⟨?_, ?_, by decide, by decide, by decide⟩
  · intro docs terms k hshort
    exact scan_alookup_none hshort
  · intro p c hx
    have hb : termBaseName tfTerm = "Terraform" := by decide
    have := scan_single_doc p c ("terraform") tfTerm hx (by rw [hb]; decide)
    rw [hb] at this
    exact this

/-- Witness for C6: the short-base conjunct applied to a one-character term,
and the single-document conjunct applied at a concrete document. -/
theorem C6_whole_word_matching_witness :
    ((∀ kv ∈ [(("x"), ({ name := "X", definition := "d", sect := "X" } :
        GlossaryTerm))], (kv : String × GlossaryTerm).1 = "x" →
        (termBaseName kv.2).length < 2) ∧
      alookup (scan_docs_for_term_usage [(("a.md"), ("X marks the spot"))]
        [(("x"), { name := "X", definition := "d", sect := "X" })]) ("x") = none) ∧
    (lastComponent ("tools.md") ∉ EXCLUDED_FILES ∧
      alookup (scan_docs_for_term_usage [(("tools.md"), ("Terraform rocks"))]
          tfTerms) ("terraform") =
        (if wordSearch ("Terraform")
            (stripInline (stripFenced ("Terraform rocks"))) then
          some [{ file_path := "tools.md", display_path := "tools.md" }]
        else none)) :=
  ⟨⟨by decide,
    C6_whole_word_matching.1 [(("a.md"), ("X marks the spot"))]
      [(("x"), { name := "X", definition := "d", sect := "X" })] ("x") (by decide)⟩,
   ⟨by decide, C6_whole_word_matching.2.1 ("tools.md") ("Terraform rocks") (by decide)⟩⟩

/-- C4 counterexample.  The claim says every parsed term's section is the
single uppercase letter of an alphabetical header above it; a term header
before any section header yields a term whose section is the empty string, and
the document contains no alphabetical section header at all. -/
theorem C4_empty_section_counterexample :
    parse_existing_glossary (some ("### Foo\nBar")) =
      [("foo", { name := "Foo", definition := "Bar", sect := "" })] ∧
    (splitNl ("### Foo\nBar")).filterMap sectionHeader? = [] := by
  refine ⟨by decide, by decide⟩

/-- C3.  Alphabetical ordering of the rendered output: for every term mapping
whose terms are well formed (each section a single uppercase letter, as the
parser's alphabetical headers produce; names free of newlines; definitions
whose lines never collide with a markdown header or code fence), the walk of
the rendered document's headers lists the section letters in strictly
ascending order, and within each section the term names in ascending
case-insensitive lexical order. -/
theorem C3_alphabetical_order (terms : List (String × GlossaryTerm))
    (hsect : ∀ kv ∈ terms, isSingleUpper kv.2.sect = true)
    (hname : ∀ kv ∈ terms, noNl kv.2.name = true)
    (hdef : ∀ kv ∈ terms, cleanDef kv.2.definition = true) :
    List.Pairwise (fun a b => a.1 < b.1)
      (walkHeaders (splitNl (generate_glossary_content terms none ("") false))) ∧
    ∀ g ∈ walkHeaders (splitNl (generate_glossary_content terms none ("") false)),
      List.Pairwise (fun a b => strLe (pyLower a) (pyLower b)) g.2 := by
  have hLfact : ∀ L ∈ List.insertionSort strLe (((groupBySection terms).map
      (fun g => (g.1, List.insertionSort termLe g.2))).map (fun g => g.1)),
      ∃ c, L.data = [c] ∧ ('A' ≤ c && c ≤ 'Z') = true := by
    intro L hLmem
    rw [List.mem_insertionSort, keys_map_snd] at hLmem
    rcases groupFold_keys_sub terms [] L hLmem with h | ⟨kv, hkv, he⟩
    · simp at h
    · exact isSingleUpper_data (he ▸ hsect kv hkv)
  rw [walkHeaders_render terms hsect hname hdef]
  constructor
  · rw [List.pairwise_map]
    have hknd : ((((groupBySection terms).map
        (fun g => (g.1, List.insertionSort termLe g.2))).map
          (fun g => g.1))).Nodup := by
      rw [keys_map_snd]
      exact groupFold_keys_nodup terms [] (by simp)
    have hnd : (List.insertionSort strLe (((groupBySection terms).map
        (fun g => (g.1, List.insertionSort termLe g.2))).map
          (fun g => g.1))).Nodup :=
      (List.perm_insertionSort strLe _).nodup_iff.mpr hknd
    have hsorted := List.sorted_insertionSort strLe (((groupBySection terms).map
        (fun g => (g.1, List.insertionSort termLe g.2))).map (fun g => g.1))
    refine List.Pairwise.imp_of_mem ?_ (List.Pairwise.and hsorted hnd)
    intro a b hamem hbmem hab
    obtain ⟨c1, ha, _⟩ := hLfact a hamem
    obtain ⟨c2, hb, _⟩ := hLfact b hbmem
    have hlt := singleLe_lt ha hb hab.1 hab.2
    simpa [ha, hb] using hlt
  · intro g hg
    obtain ⟨L, hLmem, rfl⟩ := List.mem_map.mp hg
    show List.Pairwise _ (((alookup ((groupBySection terms).map
      (fun x => (x.1, List.insertionSort termLe x.2))) L).getD []).map
        (fun t => t.name))
    have hasnd := alookup_map_snd (groupBySection terms)
      (fun x => List.insertionSort termLe x) L
    simp only [] at hasnd
    rw [hasnd]
    cases halo : alookup (groupBySection terms) L with
    | none => simp
    | some g0 =>
      show List.Pairwise _ ((List.insertionSort termLe g0).map (fun t => t.name))
      rw [List.pairwise_map]
      exact List.sorted_insertionSort termLe g0

/-- Concrete well-formed mapping for the C3 witness: three terms across two
sections, with mixed-case names inside section A. -/
def c3terms : List (String × GlossaryTerm) :=
  [("zeta", { name := "Zeta", definition := "Last letter.", sect := "Z" }),
   ("alpha", { name := "Alpha", definition := "First letter.", sect := "A" }),
   ("apple", { name := "apple", definition := "A fruit.", sect := "A" })]

theorem C3_alphabetical_order_witness :
    ((∀ kv ∈ c3terms, isSingleUpper kv.2.sect = true) ∧
     (∀ kv ∈ c3terms, noNl kv.2.name = true) ∧
     (∀ kv ∈ c3terms, cleanDef kv.2.definition = true)) ∧
    (List.Pairwise (fun a b => a.1 < b.1)
      (walkHeaders (splitNl (generate_glossary_content c3terms none ("") false))) ∧
     ∀ g ∈ walkHeaders (splitNl (generate_glossary_content c3terms none ("") false)),
      List.Pairwise (fun a b => strLe (pyLower a) (pyLower b)) g.2) :=
  ⟨⟨by decide, by decide, by decide⟩,
   C3_alphabetical_order c3terms (by decide) (by decide) (by decide)⟩

end GlossaryGen
